import Mathlib

set_option maxRecDepth 8000

/-!
Verification development for `gh-release-devpi` (`src/gh_release_devpi/main.py`).

The Python program is embedded shallowly:
* `extract_package_metadata` applies two regular expressions via `re.match`;
  we embed these by a prioritized-backtracking matcher (`runToks`) that follows
  Python `re` semantics for the constructs the two patterns use: greedy `+` over
  a character class, lazy `*?` over a character class, literal text, a
  prioritized alternation of literals, `.` (which does not match a newline when
  `re.DOTALL` is off), and `$` (which matches at the end of the string or just
  before a trailing newline).
* `compute_file_hash` is embedded with full executable MD5 and SHA-256 over
  byte lists, and `hashlib` objects are modelled functionally.
* the network is abstracted by per-attempt outcome functions; the filesystem by
  association lists of file names to byte contents.
-/

/-! ## Filename metadata extraction (`extract_package_metadata`) -/

/-- Result dictionary of `extract_package_metadata`: keys `name`, `version`. -/
structure PkgMeta where
  name : String
  version : String
deriving DecidableEq, Repr

/-- Captured text of the regex groups 1–3 (both patterns have three groups at
most; group text is accumulated left to right along the successful path, which
coincides with Python capture semantics for these patterns because each group's
tokens are contiguous). -/
structure Caps where
  g1 : List Char
  g2 : List Char
  g3 : List Char
deriving DecidableEq, Repr

def initCaps : Caps := ⟨[], [], []⟩

def appendCap (caps : Caps) (g : Nat) (s : List Char) : Caps :=
  match g with
  | 1 => { caps with g1 := caps.g1 ++ s }
  | 2 => { caps with g2 := caps.g2 ++ s }
  | _ => { caps with g3 := caps.g3 ++ s }

/-- Regex tokens sufficient for the two patterns in the source:
`^([a-zA-Z0-9_]+)-([0-9][a-zA-Z0-9._]*?)-(.*?)\.whl$` and
`^([a-zA-Z0-9_]+)-([0-9][a-zA-Z0-9._]*?)\.(tar\.gz|zip|tar\.bz2|egg)$`. -/
inductive Tok where
  | lit (l : List Char)
  | clsOnce (p : Char → Bool) (g : Nat)
  | starL (p : Char → Bool) (g : Nat)
  | plusG (p : Char → Bool) (g : Nat)
  | altLit (ls : List (List Char)) (g : Nat)
  | endAnchor

/-- First success in a prioritized list of alternatives (backtracking order). -/
def firstSome {α : Type} (f : α → Option Caps) : List α → Option Caps
  | [] => none
  | k :: ks =>
    match f k with
    | some c => some c
    | none => firstSome f ks

/-- Length of the maximal run of class characters at the head of `s`: the only
lengths a class quantifier can consume. -/
def runLen (p : Char → Bool) (s : List Char) : Nat := (s.takeWhile p).length

/-- Prioritized backtracking matcher, anchored at the start (as `re.match`).
A lazy star tries shorter consumptions first, a greedy plus longer ones first,
alternation tries alternatives left to right; the first overall success wins,
exactly as in Python's backtracking engine.  Trailing unconsumed input is
allowed once all tokens (ending in `endAnchor` for these patterns) match. -/
def runToks : List Tok → List Char → Caps → Option Caps
  | [], _, caps => some caps
  | Tok.lit l :: ts, s, caps =>
      if l.isPrefixOf s then runToks ts (s.drop l.length) caps else none
  | Tok.clsOnce p g :: ts, s, caps =>
      match s with
      | [] => none
      | c :: rest => if p c then runToks ts rest (appendCap caps g [c]) else none
  | Tok.starL p g :: ts, s, caps =>
      firstSome (fun k => runToks ts (s.drop k) (appendCap caps g (s.take k)))
        (List.range (runLen p s + 1))
  | Tok.plusG p g :: ts, s, caps =>
      firstSome (fun k => runToks ts (s.drop k) (appendCap caps g (s.take k)))
        (List.range' 1 (runLen p s)).reverse
  | Tok.altLit ls g :: ts, s, caps =>
      firstSome
        (fun l => if l.isPrefixOf s then runToks ts (s.drop l.length) (appendCap caps g l) else none)
        ls
  | Tok.endAnchor :: ts, s, caps =>
      if s = [] ∨ s = ['\n'] then runToks ts s caps else none

/-- `[a-zA-Z0-9_]` (ASCII, as Python `re` on these patterns). -/
def isNameChar (c : Char) : Bool := c.isAlpha || c.isDigit || c = '_'

/-- `[a-zA-Z0-9._]`. -/
def isVerChar (c : Char) : Bool := c.isAlpha || c.isDigit || c = '.' || c = '_'

/-- `.` without `re.DOTALL`: any character except a newline. -/
def isDotAny (c : Char) : Bool := c != '\n'

/-- `^([a-zA-Z0-9_]+)-([0-9][a-zA-Z0-9._]*?)-(.*?)\.whl$` as tokens. -/
def wheelToks : List Tok :=
  [Tok.plusG isNameChar 1, Tok.lit ['-'], Tok.clsOnce Char.isDigit 2, Tok.starL isVerChar 2,
   Tok.lit ['-'], Tok.starL isDotAny 3, Tok.lit ['.', 'w', 'h', 'l'], Tok.endAnchor]

/-- The alternatives of `(tar\.gz|zip|tar\.bz2|egg)`, in source order. -/
def sdistExts : List (List Char) :=
  [['t', 'a', 'r', '.', 'g', 'z'], ['z', 'i', 'p'], ['t', 'a', 'r', '.', 'b', 'z', '2'],
   ['e', 'g', 'g']]

/-- `^([a-zA-Z0-9_]+)-([0-9][a-zA-Z0-9._]*?)\.(tar\.gz|zip|tar\.bz2|egg)$` as tokens. -/
def sdistToks : List Tok :=
  [Tok.plusG isNameChar 1, Tok.lit ['-'], Tok.clsOnce Char.isDigit 2, Tok.starL isVerChar 2,
   Tok.lit ['.'], Tok.altLit sdistExts 3, Tok.endAnchor]

/-- `os.path.basename`: the part after the last `/`. -/
def basename (s : List Char) : List Char :=
  (s.reverse.takeWhile (fun c => c != '/')).reverse

/-- `extract_package_metadata` from the source: wheel pattern first, then the
sdist pattern, otherwise the `unknown`/`0.0.0` fallback (after a warning). -/
def extract_package_metadata (filename : String) : PkgMeta :=
  let b := basename filename.toList
  match runToks wheelToks b initCaps with
  | some caps => ⟨String.mk caps.g1, String.mk caps.g2⟩
  | none =>
    match runToks sdistToks b initCaps with
    | some caps => ⟨String.mk caps.g1, String.mk caps.g2⟩
    | none => ⟨"unknown", "0.0.0"⟩

/-! ## Hashing (`compute_file_hash`)

Bytes are naturals below 256; the two digest algorithms are implemented in
full, over `Nat` with explicit `% 2^32` where 32-bit overflow matters. -/

def M32 : Nat := 4294967296

/-- 32-bit left rotate (operands below `2^32`; the two parts are disjoint, so
addition is the bitwise or). -/
def rotl32 (x n : Nat) : Nat := ((x <<< n) % M32) + (x >>> (32 - n))

/-- 32-bit right rotate. -/
def rotr32 (x n : Nat) : Nat := (x >>> n) + ((x <<< (32 - n)) % M32)

/-- Split into chunks of `cs` bytes; `fuel` bounds the recursion and the
initial length is always enough fuel when `cs ≥ 1`. -/
def chunksGo (cs : Nat) : Nat → List Nat → List (List Nat)
  | 0, _ => []
  | _ + 1, [] => []
  | fuel + 1, l => l.take cs :: chunksGo cs fuel (l.drop cs)

def chunksOf (cs : Nat) (l : List Nat) : List (List Nat) := chunksGo cs l.length l

/-- Zero bytes of padding between the `0x80` byte and the length field:
`(55 - len) mod 64` in the mathematical (nonnegative) sense. -/
def padZeros (len : Nat) : Nat := (119 - len % 64) % 64

def leBytes8 (n : Nat) : List Nat := (List.range 8).map (fun i => (n >>> (8 * i)) % 256)

def beBytes8 (n : Nat) : List Nat := (List.range 8).map (fun i => (n >>> (8 * (7 - i))) % 256)

def leBytes4 (n : Nat) : List Nat := (List.range 4).map (fun i => (n >>> (8 * i)) % 256)

def beBytes4 (n : Nat) : List Nat := (List.range 4).map (fun i => (n >>> (8 * (3 - i))) % 256)

def leWord (b : List Nat) : Nat :=
  b.getD 0 0 + b.getD 1 0 * 256 + b.getD 2 0 * 65536 + b.getD 3 0 * 16777216

def beWord (b : List Nat) : Nat :=
  b.getD 0 0 * 16777216 + b.getD 1 0 * 65536 + b.getD 2 0 * 256 + b.getD 3 0

def hexDigitChar (n : Nat) : Char :=
  if n < 10 then Char.ofNat (48 + n) else Char.ofNat (87 + n)

def hexByte (b : Nat) : List Char := [hexDigitChar (b / 16), hexDigitChar (b % 16)]

def hexOfBytes (bs : List Nat) : String := String.mk (bs.map hexByte).flatten

/-- MD5 round constants `floor(abs(sin(i+1)) * 2^32)`. -/
def md5K : List Nat :=
  [3614090360, 3905402710, 606105819, 3250441966, 4118548399, 1200080426, 2821735955, 4249261313,
   1770035416, 2336552879, 4294925233, 2304563134, 1804603682, 4254626195, 2792965006, 1236535329,
   4129170786, 3225465664, 643717713, 3921069994, 3593408605, 38016083, 3634488961, 3889429448,
   568446438, 3275163606, 4107603335, 1163531501, 2850285829, 4243563512, 1735328473, 2368359562,
   4294588738, 2272392833, 1839030562, 4259657740, 2763975236, 1272893353, 4139469664, 3200236656,
   681279174, 3936430074, 3572445317, 76029189, 3654602809, 3873151461, 530742520, 3299628645,
   4096336452, 1126891415, 2878612391, 4237533241, 1700485571, 2399980690, 4293915773, 2240044497,
   1873313359, 4264355552, 2734768916, 1309151649, 4149444226, 3174756917, 718787259, 3951481745]

/-- MD5 per-round left-rotation amounts. -/
def md5S : List Nat :=
  [7, 12, 17, 22, 7, 12, 17, 22, 7, 12, 17, 22, 7, 12, 17, 22,
   5, 9, 14, 20, 5, 9, 14, 20, 5, 9, 14, 20, 5, 9, 14, 20,
   4, 11, 16, 23, 4, 11, 16, 23, 4, 11, 16, 23, 4, 11, 16, 23,
   6, 10, 15, 21, 6, 10, 15, 21, 6, 10, 15, 21, 6, 10, 15, 21]

def md5f (i b c d : Nat) : Nat :=
  if i < 16 then (b &&& c) ||| ((4294967295 - b) &&& d)
  else if i < 32 then (d &&& b) ||| ((4294967295 - d) &&& c)
  else if i < 48 then b ^^^ c ^^^ d
  else c ^^^ (b ||| (4294967295 - d))

def md5g (i : Nat) : Nat :=
  if i < 16 then i
  else if i < 32 then (5 * i + 1) % 16
  else if i < 48 then (3 * i + 5) % 16
  else (7 * i) % 16

def md5round (ws : List Nat) (st : Nat × Nat × Nat × Nat) (i : Nat) : Nat × Nat × Nat × Nat :=
  match st with
  | (a, b, c, d) =>
    let t := (md5f i b c d + a + md5K.getD i 0 + ws.getD (md5g i) 0) % M32
    (d, (b + rotl32 t (md5S.getD i 0)) % M32, b, c)

def md5compress (st : Nat × Nat × Nat × Nat) (block : List Nat) : Nat × Nat × Nat × Nat :=
  let ws := (List.range 16).map (fun i => leWord (block.drop (4 * i)))
  match st, (List.range 64).foldl (md5round ws) st with
  | (a0, b0, c0, d0), (a, b, c, d) =>
    ((a0 + a) % M32, (b0 + b) % M32, (c0 + c) % M32, (d0 + d) % M32)

/-- MD5 padding: `0x80`, zeros to 56 mod 64, then the bit length, little-endian. -/
def md5pad (msg : List Nat) : List Nat :=
  msg ++ [128] ++ List.replicate (padZeros msg.length) 0
    ++ leBytes8 ((msg.length * 8) % 18446744073709551616)

def md5hex (msg : List Nat) : String :=
  match (chunksOf 64 (md5pad msg)).foldl md5compress
      (1732584193, 4023233417, 2562383102, 271733878) with
  | (a, b, c, d) => hexOfBytes ([a, b, c, d].map leBytes4).flatten

/-- SHA-256 round constants (fractional parts of cube roots of the first 64 primes). -/
def sha256K : List Nat :=
  [1116352408, 1899447441, 3049323471, 3921009573, 961987163, 1508970993, 2453635748, 2870763221,
   3624381080, 310598401, 607225278, 1426881987, 1925078388, 2162078206, 2614888103, 3248222580,
   3835390401, 4022224774, 264347078, 604807628, 770255983, 1249150122, 1555081692, 1996064986,
   2554220882, 2821834349, 2952996808, 3210313671, 3336571891, 3584528711, 113926993, 338241895,
   666307205, 773529912, 1294757372, 1396182291, 1695183700, 1986661051, 2177026350, 2456956037,
   2730485921, 2820302411, 3259730800, 3345764771, 3516065817, 3600352804, 4094571909, 275423344,
   430227734, 506948616, 659060556, 883997877, 958139571, 1322822218, 1537002063, 1747873779,
   1955562222, 2024104815, 2227730452, 2361852424, 2428436474, 2756734187, 3204031479, 3329325298]

structure Sha256State where
  a : Nat
  b : Nat
  c : Nat
  d : Nat
  e : Nat
  f : Nat
  g : Nat
  h : Nat
deriving DecidableEq, Repr

/-- SHA-256 message schedule: 16 big-endian words extended to 64. -/
def shaWs (block : List Nat) : List Nat :=
  (List.range' 16 48).foldl
    (fun ws i =>
      let w15 := ws.getD (i - 15) 0
      let w2 := ws.getD (i - 2) 0
      let s0 := rotr32 w15 7 ^^^ rotr32 w15 18 ^^^ (w15 >>> 3)
      let s1 := rotr32 w2 17 ^^^ rotr32 w2 19 ^^^ (w2 >>> 10)
      ws ++ [(ws.getD (i - 16) 0 + s0 + ws.getD (i - 7) 0 + s1) % M32])
    ((List.range 16).map (fun i => beWord (block.drop (4 * i))))

def shaRound (ws : List Nat) (st : Sha256State) (i : Nat) : Sha256State :=
  let s1 := rotr32 st.e 6 ^^^ rotr32 st.e 11 ^^^ rotr32 st.e 25
  let ch := (st.e &&& st.f) ^^^ ((4294967295 - st.e) &&& st.g)
  let t1 := (st.h + s1 + ch + sha256K.getD i 0 + ws.getD i 0) % M32
  let s0 := rotr32 st.a 2 ^^^ rotr32 st.a 13 ^^^ rotr32 st.a 22
  let maj := (st.a &&& st.b) ^^^ (st.a &&& st.c) ^^^ (st.b &&& st.c)
  let t2 := (s0 + maj) % M32
  ⟨(t1 + t2) % M32, st.a, st.b, st.c, (st.d + t1) % M32, st.e, st.f, st.g⟩

def sha256compress (st : Sha256State) (block : List Nat) : Sha256State :=
  let r := (List.range 64).foldl (shaRound (shaWs block)) st
  ⟨(st.a + r.a) % M32, (st.b + r.b) % M32, (st.c + r.c) % M32, (st.d + r.d) % M32,
   (st.e + r.e) % M32, (st.f + r.f) % M32, (st.g + r.g) % M32, (st.h + r.h) % M32⟩

/-- SHA-256 padding: like MD5 but the bit length is big-endian. -/
def shaPad (msg : List Nat) : List Nat :=
  msg ++ [128] ++ List.replicate (padZeros msg.length) 0
    ++ beBytes8 ((msg.length * 8) % 18446744073709551616)

def sha256init : Sha256State :=
  ⟨1779033703, 3144134277, 1013904242, 2773480762, 1359893119, 2600822924, 528734635, 1541459225⟩

def sha256hex (msg : List Nat) : String :=
  let r := (chunksOf 64 (shaPad msg)).foldl sha256compress sha256init
  hexOfBytes ([r.a, r.b, r.c, r.d, r.e, r.f, r.g, r.h].map beBytes4).flatten

/-- `compute_file_hash` with an explicit read-chunk size: the file is read in
chunks, each chunk fed to both running digests (a `hashlib` object is modelled
by its absorbed byte list), and the two lowercase hex digests are returned. -/
def computeFileHashChunked (chunkSize : Nat) (content : List Nat) : String × String :=
  let chunks := chunksOf chunkSize content
  let md5Absorbed := chunks.foldl (fun acc ch => acc ++ ch) []
  let shaAbsorbed := chunks.foldl (fun acc ch => acc ++ ch) []
  (md5hex md5Absorbed, sha256hex shaAbsorbed)

/-- `compute_file_hash` from the source: fixed 8 KiB read chunks. -/
def compute_file_hash (content : List Nat) : String × String :=
  computeFileHashChunked 8192 content

/-! ## Streaming download (`_requests_get_stream`, `download_asset`)

The network is abstracted by a function from the attempt number (1-based) to
that attempt's outcome.  A successful attempt yields the response body as the
chunk list produced by `iter_content(8192)`; a failing attempt either raised
before the destination file was opened (connection error, non-2xx status via
`raise_for_status`) or raised mid-copy after some chunks were already written
to the freshly truncated destination file.  Errors are identified by numeric
codes.  The destination file is threaded explicitly as `Option (List Nat)`
(`none` = file absent). -/

inductive AttemptOutcome where
  | success (chunks : List (List Nat))
  | failBefore (e : Nat)
  | failDuring (e : Nat) (written : List (List Nat))

/-- Bytes on disk after the copy loop `for chunk in r.iter_content: if chunk:
f.write(chunk)` over a freshly opened (truncated) file. -/
def writeChunks (chunks : List (List Nat)) : List Nat :=
  (chunks.filter (fun ch => !ch.isEmpty)).flatten

/-- The attempt loop `for attempt in range(1, max_retries + 1)` of
`_requests_get_stream`: on success return `None` (first component) with the
file fully written; on an exception remember it as `last_exc` and continue;
when attempts are exhausted return `last_exc`. -/
def requestsGetStreamGo (oc : Nat → AttemptOutcome) :
    List Nat → Option (List Nat) → Option Nat → Option Nat × Option (List Nat)
  | [], file, lastExc => (lastExc, file)
  | n :: rest, file, lastExc =>
    match oc n with
    | AttemptOutcome.success chunks => (none, some (writeChunks chunks))
    | AttemptOutcome.failBefore e => requestsGetStreamGo oc rest file (some e)
    | AttemptOutcome.failDuring e written =>
        requestsGetStreamGo oc rest (some (writeChunks written)) (some e)

/-- `_requests_get_stream(url, headers, dest_path, max_retries=2)`; `url` and
`headers` are absorbed into the attempt-outcome function `oc`. -/
def requests_get_stream (oc : Nat → AttemptOutcome) (maxRetries : Nat)
    (file : Option (List Nat)) : Option Nat × Option (List Nat) :=
  requestsGetStreamGo oc (List.range' 1 maxRetries) file none

/-- `download_asset`: delegates to the streaming fetch with the default two
attempts; on success returns the saved path `dest_dir/asset.name`, otherwise
raises `RuntimeError(f"Failed to download asset {asset.name}.")`. -/
def download_asset (oc : Nat → AttemptOutcome) (assetName : String) (destDir : String)
    (file : Option (List Nat)) : Except String String × Option (List Nat) :=
  match requests_get_stream oc 2 file with
  | (none, f) => (Except.ok (destDir ++ "/" ++ assetName), f)
  | (some _, f) => (Except.error ("Failed to download asset " ++ assetName ++ "."), f)

/-! ## Working directory (`ensure_dir`, `clear_artifacts_dir`) and the
download loop of the `download` command -/

/-- Directory contents: file name to byte content. -/
abbrev Dir := List (String × List Nat)

def upsert (d : Dir) (nm : String) (c : List Nat) : Dir :=
  match d with
  | [] => [(nm, c)]
  | (k, v) :: rest => if k = nm then (k, c) :: rest else (k, v) :: upsert rest nm c

def lookupFile (d : Dir) (nm : String) : Option (List Nat) :=
  match d with
  | [] => none
  | (k, v) :: rest => if k = nm then some v else lookupFile rest nm

/-- `os.makedirs(path, exist_ok=True)`: creates the directory if absent,
keeps its contents if present. -/
def ensure_dir (fs : Option Dir) : Option Dir := some (fs.getD [])

/-- `clear_artifacts_dir`: `shutil.rmtree` if the directory exists, then
`ensure_dir` — the directory afterwards exists and is empty. -/
def clear_artifacts_dir (fs : Option Dir) : Option Dir :=
  ensure_dir (if fs.isSome then none else fs)

/-- A release asset: its name and the network behaviour of its download
attempts. -/
structure Asset where
  name : String
  oc : Nat → AttemptOutcome

/-- The per-asset loop of the `download` command: each asset is downloaded to
`artifacts/<name>`; an exception is caught, the asset name is appended to
`failed_downloads`, and the loop continues. -/
def runDownloads : List Asset → Dir → List String → Dir × List String
  | [], dir, failed => (dir, failed)
  | a :: rest, dir, failed =>
    match download_asset a.oc a.name "artifacts" (lookupFile dir a.name) with
    | (Except.ok _, f) =>
        runDownloads rest (match f with | some c => upsert dir a.name c | none => dir) failed
    | (Except.error _, f) =>
        runDownloads rest (match f with | some c => upsert dir a.name c | none => dir)
          (failed ++ [a.name])

/-- Clearing followed by the download loop, as sequenced in `download` (the
clearing happens before the first asset is written). -/
def downloadPhase (assets : List Asset) (fs : Option Dir) : Dir × List String :=
  match clear_artifacts_dir fs with
  | some d => runDownloads assets d []
  | none => ([], [])

/-! ## Upload (`upload_to_devpi`, direct `requests.post` strategy) -/

/-- The final HTTP response to a POST for a given file name (the server and
redirect-following are abstracted into this function). -/
structure HttpResp where
  status : Nat
  text : String

/-- The metadata fields of the multipart form body built for one file. -/
structure UploadData where
  name : String
  version : String
  md5_digest : String
  sha256_digest : String
  filetype : String
deriving DecidableEq, Repr

/-- The `data` dict built in `upload_to_devpi` for one file (the fixed
`:action`/`protocol_version` fields are constants in the source and omitted). -/
def mkUploadData (filename : String) (content : List Nat) : UploadData :=
  let metadata := extract_package_metadata filename
  let digests := compute_file_hash content
  ⟨metadata.name, metadata.version, digests.1, digests.2,
   if filename.endsWith ".whl" then "bdist_wheel" else "sdist"⟩

/-- Python truthiness of an optional string (`None` and `""` are falsy). -/
def pyTruthy (s : Option String) : Bool := s.getD "" != ""

/-- `requests.Response.raise_for_status` raises `HTTPError` exactly for
4xx and 5xx status codes. -/
def isHttpError (status : Nat) : Bool := 400 ≤ status && status < 600

/-- The `RuntimeError` message raised when a file upload fails with an
`HTTPError`: names the file and appends at most the first 200 characters of
the response body. -/
def uploadErrorMsg (filename : String) (r : HttpResp) : String :=
  "上传 " ++ filename ++ " 失败: HTTP " ++ toString r.status
    ++ (if r.text != "" then ": " ++ String.mk (r.text.toList.take 200) else "")

/-- The per-file upload loop: build metadata and digests, POST, and on an HTTP
error abort the whole loop with the formatted message; otherwise record the
submission and continue.  Already-performed submissions are never undone. -/
def uploadFiles (resp : String → HttpResp) :
    List (String × List Nat) → List (String × UploadData) → Nat →
    List (String × UploadData) × Except String Nat
  | [], uploaded, cnt => (uploaded, Except.ok cnt)
  | (fn, content) :: rest, uploaded, cnt =>
    let data := mkUploadData fn content
    let r := resp fn
    if isHttpError r.status then (uploaded, Except.error (uploadErrorMsg fn r))
    else uploadFiles resp rest (uploaded ++ [(fn, data)]) (cnt + 1)

/-- File discovery by the four extension globs, in source order. -/
def globFiles (dir : Dir) : List (String × List Nat) :=
  dir.filter (fun f => f.1.endsWith ".whl") ++ dir.filter (fun f => f.1.endsWith ".tar.gz")
    ++ dir.filter (fun f => f.1.endsWith ".zip") ++ dir.filter (fun f => f.1.endsWith ".egg")

/-- `upload_to_devpi`: raises `RuntimeError("必须指定 devpi_server 参数")` before
any discovery when the server is unset; with no package files found it returns
after a warning; otherwise it runs the upload loop.  The result carries the
submissions performed and either the success count or the abort message. -/
def upload_to_devpi (devpi_server : Option String) (resp : String → HttpResp) (dir : Dir) :
    List (String × UploadData) × Except String Nat :=
  if pyTruthy devpi_server = false then ([], Except.error "必须指定 devpi_server 参数")
  else
    let files := globFiles dir
    if files.isEmpty then ([], Except.ok 0)
    else uploadFiles resp files [] 0

/-! ## The `download` command -/

def msgTokenMissing : String := "错误: GITHUB_PAT 未设置，请通过 --token 参数或环境变量提供"

def msgRepoMissing : String := "错误: GITHUB_REPO 未设置，请通过 --repo 参数或环境变量提供"

def msgNoRelease (repo : String) : String := "仓库 " ++ repo ++ " 没有 Release。"

def msgNoAssets : String := "该 release 没有 assets（artifact）。"

def msgFailedDownloads (n : Nat) : String := "警告: " ++ toString n ++ " 个文件下载失败"

def msgSkipUpload : String := "已跳过上传到 DevPI (--skip-upload)"

def msgUploadFailed (e : String) : String := "❌ 上传失败: " ++ e

/-- Outcome of one invocation of the `download` command: the process exit
code, the user-facing messages we model (errors, warnings and skip notices, in
print order), the final state of the artifacts directory, and the upload
submissions performed. -/
structure RunResult where
  exitCode : Nat
  printed : List String
  fs : Option Dir
  uploaded : List (String × UploadData)

/-- The `download` command.  `latest` is `Except.error ()` when
`repo.get_latest_release()` raises `UnknownObjectException` (no release);
otherwise it carries the release's asset list.  The upfront configuration
checks inspect only the token and the repository identifier (Python
truthiness). -/
def downloadCommand (token repo_name : Option String) (artifacts_fs : Option Dir)
    (skip_upload : Bool) (devpi_server : Option String)
    (latest : Except Unit (List Asset)) (resp : String → HttpResp) : RunResult :=
  if pyTruthy token = false then ⟨1, [msgTokenMissing], artifacts_fs, []⟩
  else if pyTruthy repo_name = false then ⟨1, [msgRepoMissing], artifacts_fs, []⟩
  else
    match latest with
    | Except.error _ => ⟨1, [msgNoRelease (repo_name.getD "")], artifacts_fs, []⟩
    | Except.ok assets =>
      if assets.isEmpty then ⟨0, [msgNoAssets], artifacts_fs, []⟩
      else
        match downloadPhase assets artifacts_fs with
        | (dir, failed) =>
          let warn : List String := if failed.isEmpty then [] else [msgFailedDownloads failed.length]
          if skip_upload then ⟨0, warn ++ [msgSkipUpload], some dir, []⟩
          else
            match upload_to_devpi devpi_server resp dir with
            | (uploaded, Except.ok _) => ⟨0, warn, some dir, uploaded⟩
            | (uploaded, Except.error e) => ⟨1, warn ++ [msgUploadFailed e], some dir, uploaded⟩

/-! ## Auxiliary predicates used by the theorems -/

/-- The claim's version alphabet: letters, digits and dots (a subset of the
pattern's class, which also admits underscores). -/
def isClaimVerChar (c : Char) : Bool := c.isAlpha || c.isDigit || c = '.'

def isSuccessAttempt : AttemptOutcome → Bool
  | AttemptOutcome.success _ => true
  | _ => false

/-- The exception an attempt raises (none for a successful attempt). -/
def attemptError : AttemptOutcome → Option Nat
  | AttemptOutcome.success _ => none
  | AttemptOutcome.failBefore e => some e
  | AttemptOutcome.failDuring e _ => some e

/-- The download of `a` succeeds within the two attempts and leaves exactly
`content` on disk, whatever was there before. -/
def streamSucceedsWith (a : Asset) (content : List Nat) : Prop :=
  ∀ f0, requests_get_stream a.oc 2 f0 = (none, some content)

/-- The download of `a` exhausts both attempts with an exception. -/
def streamFails (a : Asset) : Prop :=
  ∀ f0, (requests_get_stream a.oc 2 f0).1.isSome = true

/-- Decidable version of `streamFails` used to describe the failure list. -/
def streamErrs (a : Asset) : Bool := ((requests_get_stream a.oc 2 none).1).isSome

/-- Names of the assets whose downloads fail, in asset order. -/
def downloadFailures (l : List Asset) : List String := (l.filter streamErrs).map Asset.name

/-! ## Helper lemmas: prefixes, runs, prioritized choice -/

theorem ipo_append_self (l s : List Char) : l.isPrefixOf (l ++ s) = true := by
  induction l with
  | nil => simp
  | cons a as ih => simpa [List.isPrefixOf] using ih

theorem ipo_cons_mismatch {a c : Char} (h : a ≠ c) (l s : List Char) :
    (a :: l).isPrefixOf (c :: s) = false := by
  simp [List.isPrefixOf, h]

theorem ipo_decompose {l s : List Char} (h : l.isPrefixOf s = true) :
    s = l ++ s.drop l.length := by
  induction l generalizing s with
  | nil => simp
  | cons a as ih =>
    cases s with
    | nil => exact absurd h (by simp)
    | cons b bs =>
      rw [List.isPrefixOf_cons₂, Bool.and_eq_true, beq_iff_eq] at h
      obtain ⟨rfl, h2⟩ := h
      simpa using ih h2

theorem firstSome_cons_some {α : Type} {f : α → Option Caps} {k : α} {ks : List α} {c : Caps}
    (h : f k = some c) : firstSome f (k :: ks) = some c := by
  simp [firstSome, h]

theorem firstSome_cons_none {α : Type} {f : α → Option Caps} {k : α} {ks : List α}
    (h : f k = none) : firstSome f (k :: ks) = firstSome f ks := by
  simp [firstSome, h]

theorem firstSome_eq_none {α : Type} {f : α → Option Caps} {ks : List α}
    (h : ∀ k ∈ ks, f k = none) : firstSome f ks = none := by
  induction ks with
  | nil => rfl
  | cons k ks ih =>
    rw [firstSome_cons_none (h k (by simp))]
    exact ih (fun j hj => h j (by simp [hj]))

theorem firstSome_append_none {α : Type} {f : α → Option Caps} {ks1 : List α} (ks2 : List α)
    (h : ∀ k ∈ ks1, f k = none) : firstSome f (ks1 ++ ks2) = firstSome f ks2 := by
  induction ks1 with
  | nil => rfl
  | cons k ks ih =>
    rw [List.cons_append, firstSome_cons_none (h k (by simp))]
    exact ih (fun j hj => h j (by simp [hj]))

/-- Priority of a lazy quantifier over `[0, …, n]`: the first `K` with a
successful continuation wins. -/
theorem firstSome_range_first {f : Nat → Option Caps} {K n : Nat} {c : Caps}
    (hKn : K ≤ n) (hfail : ∀ j, j < K → f j = none) (hK : f K = some c) :
    firstSome f (List.range (n + 1)) = some c := by
  have hsplit : List.range (n + 1) = List.range' 0 K ++ List.range' K (n + 1 - K) := by
    rw [List.range_eq_range']
    have h2 : n + 1 - K + K = n + 1 := by omega
    calc List.range' 0 (n + 1) = List.range' 0 (n + 1 - K + K) := by rw [h2]
      _ = List.range' 0 K ++ List.range' (0 + K) (n + 1 - K) :=
          (List.range'_append_1 0 K (n + 1 - K)).symm
      _ = List.range' 0 K ++ List.range' K (n + 1 - K) := by rw [Nat.zero_add]
  rw [hsplit, firstSome_append_none _ (fun k hk => hfail k (by simpa using (List.mem_range'_1.mp hk).2))]
  have h1 : n + 1 - K = (n - K) + 1 := by omega
  rw [h1, List.range'_succ]
  exact firstSome_cons_some hK

/-- Priority of a greedy quantifier over `[n, …, 1]`: the longest consumption
is tried first. -/
theorem firstSome_reverse_head {f : Nat → Option Caps} {n : Nat} {c : Caps}
    (hn : 1 ≤ n) (h : f n = some c) : firstSome f (List.range' 1 n).reverse = some c := by
  obtain ⟨m, rfl⟩ : ∃ m, n = m + 1 := ⟨n - 1, by omega⟩
  rw [List.range'_1_concat, List.reverse_append]
  exact firstSome_cons_some (by rw [Nat.add_comm 1 m]; exact h)

theorem firstSome_reverse_none {f : Nat → Option Caps} {n : Nat}
    (h : ∀ k, 1 ≤ k → k ≤ n → f k = none) : firstSome f (List.range' 1 n).reverse = none := by
  apply firstSome_eq_none
  intro k hk
  rw [List.mem_reverse, List.mem_range'_1] at hk
  exact h k hk.1 (by omega)

theorem runLen_append_all {p : Char → Bool} {xs : List Char} (ys : List Char)
    (h : ∀ x ∈ xs, p x = true) : runLen p (xs ++ ys) = xs.length + runLen p ys := by
  simp [runLen, List.takeWhile_append_of_pos h]

theorem runLen_cons_neg {p : Char → Bool} {c : Char} (h : p c = false) (l : List Char) :
    runLen p (c :: l) = 0 := by
  have hc : ¬ p c = true := by rw [h]; exact Bool.false_ne_true
  simp [runLen, List.takeWhile_cons_of_neg hc]

theorem runLen_all {p : Char → Bool} {xs : List Char} (h : ∀ x ∈ xs, p x = true) :
    runLen p xs = xs.length := by
  have := runLen_append_all (p := p) [] h
  simpa [runLen] using this

theorem runLen_append_stop {p : Char → Bool} {xs : List Char} {c : Char} (ys : List Char)
    (hxs : ∀ x ∈ xs, p x = true) (hc : p c = false) :
    runLen p (xs ++ c :: ys) = xs.length := by
  rw [runLen_append_all _ hxs, runLen_cons_neg hc]
  omega

/-! ## Step lemmas for the matcher -/

theorem runToks_nil (s : List Char) (caps : Caps) : runToks [] s caps = some caps := rfl

theorem runToks_lit_cons (l : List Char) (ts : List Tok) (s : List Char) (caps : Caps) :
    runToks (Tok.lit l :: ts) (l ++ s) caps = runToks ts s caps := by
  simp [runToks, ipo_append_self, List.drop_left]

theorem runToks_lit_exact (l : List Char) (ts : List Tok) (caps : Caps) :
    runToks (Tok.lit l :: ts) l caps = runToks ts [] caps := by
  have h := runToks_lit_cons l ts [] caps
  simpa using h

theorem runToks_lit_mismatch {a c : Char} (h : a ≠ c) (l : List Char) (ts : List Tok)
    (s : List Char) (caps : Caps) :
    runToks (Tok.lit (a :: l) :: ts) (c :: s) caps = none := by
  simp [runToks, ipo_cons_mismatch h]

theorem runToks_lit_nil {a : Char} (l : List Char) (ts : List Tok) (caps : Caps) :
    runToks (Tok.lit (a :: l) :: ts) [] caps = none := by
  simp [runToks]

theorem runToks_clsOnce_pos {p : Char → Bool} {c : Char} (h : p c = true) (g : Nat)
    (ts : List Tok) (s : List Char) (caps : Caps) :
    runToks (Tok.clsOnce p g :: ts) (c :: s) caps = runToks ts s (appendCap caps g [c]) := by
  simp [runToks, h]

theorem runToks_clsOnce_neg {p : Char → Bool} {c : Char} (h : p c = false) (g : Nat)
    (ts : List Tok) (s : List Char) (caps : Caps) :
    runToks (Tok.clsOnce p g :: ts) (c :: s) caps = none := by
  simp [runToks, h]

theorem runToks_endAnchor_nil (ts : List Tok) (caps : Caps) :
    runToks (Tok.endAnchor :: ts) [] caps = runToks ts [] caps := by
  simp [runToks]

theorem runToks_endAnchor_ne {s : List Char} (h1 : s ≠ []) (h2 : s ≠ ['\n'])
    (ts : List Tok) (caps : Caps) : runToks (Tok.endAnchor :: ts) s caps = none := by
  simp [runToks, h1, h2]

/-- A greedy plus whose maximal run is `xs.length` (the next character is not
in the class) succeeds by consuming exactly `xs` when the continuation does. -/
theorem runToks_plusG_succ {p : Char → Bool} {g : Nat} {ts : List Tok} {xs ys : List Char}
    {caps c : Caps} (hne : xs ≠ [])
    (hstop : runLen p (xs ++ ys) = xs.length)
    (h : runToks ts ys (appendCap caps g xs) = some c) :
    runToks (Tok.plusG p g :: ts) (xs ++ ys) caps = some c := by
  simp only [runToks, hstop]
  apply firstSome_reverse_head
  · have : 0 < xs.length := List.length_pos.mpr hne
    omega
  · rw [List.take_left' rfl, List.drop_left' rfl]
    exact h

theorem runToks_plusG_none {p : Char → Bool} {g : Nat} {ts : List Tok} {s : List Char}
    {caps : Caps}
    (h : ∀ k, 1 ≤ k → k ≤ runLen p s →
      runToks ts (s.drop k) (appendCap caps g (s.take k)) = none) :
    runToks (Tok.plusG p g :: ts) s caps = none := by
  simp only [runToks]
  exact firstSome_reverse_none h

theorem runToks_starL_first (K : Nat) {p : Char → Bool} {g : Nat} {ts : List Tok} {s : List Char}
    {caps c : Caps} (hK : K ≤ runLen p s)
    (hfail : ∀ j, j < K → runToks ts (s.drop j) (appendCap caps g (s.take j)) = none)
    (hsucc : runToks ts (s.drop K) (appendCap caps g (s.take K)) = some c) :
    runToks (Tok.starL p g :: ts) s caps = some c := by
  simp only [runToks]
  exact firstSome_range_first hK hfail hsucc

theorem runToks_starL_none {p : Char → Bool} {g : Nat} {ts : List Tok} {s : List Char}
    {caps : Caps}
    (h : ∀ k, k ≤ runLen p s → runToks ts (s.drop k) (appendCap caps g (s.take k)) = none) :
    runToks (Tok.starL p g :: ts) s caps = none := by
  simp only [runToks]
  apply firstSome_eq_none
  intro k hk
  rw [List.mem_range] at hk
  exact h k (by omega)

theorem runToks_altLit_none {ls : List (List Char)} {g : Nat} {ts : List Tok} {s : List Char}
    {caps : Caps}
    (h : ∀ l ∈ ls, l.isPrefixOf s = false ∨
      runToks ts (s.drop l.length) (appendCap caps g l) = none) :
    runToks (Tok.altLit ls g :: ts) s caps = none := by
  simp only [runToks]
  apply firstSome_eq_none
  intro l hl
  rcases h l hl with h1 | h1
  · simp [h1]
  · simp [h1]

/-! ## Character-class facts -/

theorem claimVer_isVerChar {c : Char} (h : isClaimVerChar c = true) : isVerChar c = true := by
  simp only [isClaimVerChar, Bool.or_eq_true] at h
  simp only [isVerChar, Bool.or_eq_true]
  tauto

theorem claimVer_ne {c : Char} (h : isClaimVerChar c = true) :
    c ≠ '-' ∧ c ≠ '\n' ∧ c ≠ '/' := by
  refine ⟨?_, ?_, ?_⟩ <;> intro hc <;> subst hc <;> exact absurd h (by decide)

theorem nameChar_ne {c : Char} (h : isNameChar c = true) : c ≠ '-' ∧ c ≠ '/' ∧ c ≠ '\n' := by
  refine ⟨?_, ?_, ?_⟩ <;> intro hc <;> subst hc <;> exact absurd h (by decide)

theorem digit_facts {c : Char} (h : c.isDigit = true) :
    isClaimVerChar c = true ∧ c ≠ '/' ∧ c ≠ '\n' := by
  refine ⟨by simp [isClaimVerChar, h], ?_, ?_⟩ <;> intro hc <;> subst hc <;>
    exact absurd h (by decide)

theorem dotAny_of_ne {c : Char} (h : c ≠ '\n') : isDotAny c = true := by
  simp [isDotAny, h]

/-- Head decomposition of `(xs ++ rest).drop j` for `j < xs.length`: the head
is a member of `xs`. -/
theorem drop_head_mem (xs rest : List Char) {j : Nat} (hj : j < xs.length) :
    ∃ c0 l0, (xs ++ rest).drop j = c0 :: (l0 ++ rest) ∧ c0 ∈ xs ∧ ∀ x ∈ l0, x ∈ xs := by
  have hd : (xs ++ rest).drop j = xs.drop j ++ rest := by
    conv_lhs => rw [← List.take_append_drop j xs, List.append_assoc]
    rw [List.drop_left' (by rw [List.length_take]; omega)]
  have hne : xs.drop j ≠ [] := by
    have : (xs.drop j).length = xs.length - j := List.length_drop j xs
    intro h0
    rw [h0] at this
    simp at this
    omega
  obtain ⟨c0, l0, hc0⟩ := List.exists_cons_of_ne_nil hne
  refine ⟨c0, l0, ?_, ?_, ?_⟩
  · rw [hd, hc0, List.cons_append]
  · exact List.drop_subset j xs (hc0 ▸ List.mem_cons_self c0 l0)
  · intro x hx
    exact List.drop_subset j xs (hc0 ▸ List.mem_cons_of_mem c0 hx)

/-! ## The wheel pattern on a well-formed wheel filename -/

theorem wheel_match (nm vr rem : List Char) (d : Char) (caps : Caps)
    (hnm : nm ≠ []) (hnmc : ∀ c ∈ nm, isNameChar c = true)
    (hd : d.isDigit = true)
    (hvr : ∀ c ∈ vr, isClaimVerChar c = true)
    (hrem : ∀ c ∈ rem, c ≠ '\n') :
    runToks wheelToks (nm ++ ('-' :: (d :: (vr ++ ('-' :: (rem ++ ['.', 'w', 'h', 'l'])))))) caps
      = some ⟨caps.g1 ++ nm, caps.g2 ++ (d :: vr), caps.g3 ++ rem⟩ := by
  have hvr2 : ∀ c ∈ vr, isVerChar c = true := fun c hc => claimVer_isVerChar (hvr c hc)
  have hstop1 : runLen isNameChar (nm ++ ('-' :: (d :: (vr ++ ('-' :: (rem ++ ['.', 'w', 'h', 'l']))))))
      = nm.length := runLen_append_stop _ hnmc (by decide)
  have hstop2 : runLen isVerChar (vr ++ ('-' :: (rem ++ ['.', 'w', 'h', 'l']))) = vr.length :=
    runLen_append_stop _ hvr2 (by decide)
  simp only [wheelToks]
  apply runToks_plusG_succ hnm hstop1
  rw [show ('-' :: (d :: (vr ++ ('-' :: (rem ++ ['.', 'w', 'h', 'l'])))) : List Char)
      = ['-'] ++ (d :: (vr ++ ('-' :: (rem ++ ['.', 'w', 'h', 'l'])))) from rfl,
    runToks_lit_cons, runToks_clsOnce_pos hd]
  refine runToks_starL_first vr.length hstop2.ge ?_ ?_
  · -- shorter consumptions of the version star die on the `-` literal
    intro j hj
    obtain ⟨c0, l0, hdrop, hc0, _⟩ := drop_head_mem vr ('-' :: (rem ++ ['.', 'w', 'h', 'l'])) hj
    rw [hdrop]
    exact runToks_lit_mismatch (Ne.symm (claimVer_ne (hvr c0 hc0)).1) _ _ _ _
  · rw [List.drop_left' rfl, List.take_left' rfl,
      show ('-' :: (rem ++ ['.', 'w', 'h', 'l']) : List Char)
        = ['-'] ++ (rem ++ ['.', 'w', 'h', 'l']) from rfl, runToks_lit_cons]
    have hdot : ∀ c ∈ rem ++ ['.', 'w', 'h', 'l'], isDotAny c = true := by
      intro c hc
      rcases List.mem_append.mp hc with h1 | h1
      · exact dotAny_of_ne (hrem c h1)
      · fin_cases h1 <;> decide
    refine runToks_starL_first rem.length
      (by rw [runLen_all hdot]; simp) ?_ ?_
    · -- shorter consumptions of `(.*?)` cannot reach the end anchor
      intro j hj
      rcases hp : (['.', 'w', 'h', 'l'] : List Char).isPrefixOf ((rem ++ ['.', 'w', 'h', 'l']).drop j)
        with hfalse | htrue
      · simp [runToks, hp]
      · rw [ipo_decompose hp, runToks_lit_cons]
        have hdd : ((rem ++ ['.', 'w', 'h', 'l']).drop j).drop (4 : Nat)
            = (rem ++ ['.', 'w', 'h', 'l']).drop (j + 4) := by
          rw [List.drop_drop]
        rw [show (['.', 'w', 'h', 'l'] : List Char).length = 4 from rfl, hdd]
        apply runToks_endAnchor_ne
        · apply List.length_pos.mp
          rw [List.length_drop, List.length_append]
          simp only [List.length_cons, List.length_nil]
          omega
        · intro heq
          have hmem : '\n' ∈ rem ++ ['.', 'w', 'h', 'l'] :=
            List.drop_subset _ _ (heq ▸ List.mem_cons_self '\n' [])
          rcases List.mem_append.mp hmem with h1 | h1
          · exact hrem '\n' h1 rfl
          · simp at h1
    · rw [List.drop_left' rfl, List.take_left' rfl, runToks_lit_exact, runToks_endAnchor_nil,
        runToks_nil]
      simp [appendCap]

/-! ## `basename` and failure lemmas -/

theorem takeWhile_all {p : Char → Bool} {l : List Char} (h : ∀ c ∈ l, p c = true) :
    l.takeWhile p = l := by
  induction l with
  | nil => rfl
  | cons a l ih =>
    rw [List.takeWhile_cons_of_pos (h a (by simp))]
    rw [ih (fun c hc => h c (by simp [hc]))]

theorem basename_eq_self {s : List Char} (h : ∀ c ∈ s, c ≠ '/') : basename s = s := by
  unfold basename
  rw [takeWhile_all, List.reverse_reverse]
  intro c hc
  simpa using h c (List.mem_reverse.mp hc)

/-- A one-character literal fails at every position of a string that does not
contain the character. -/
theorem runToks_lit_single_none {a : Char} {s : List Char} (ts : List Tok) (caps : Caps)
    (h : a ∉ s) (k : Nat) : runToks (Tok.lit [a] :: ts) (s.drop k) caps = none := by
  cases hd : s.drop k with
  | nil => exact runToks_lit_nil [] ts caps
  | cons c0 l0 =>
    have hc0 : c0 ∈ s := List.drop_subset k s (hd ▸ List.mem_cons_self c0 l0)
    exact runToks_lit_mismatch (fun he => h (by rw [he]; exact hc0)) [] ts l0 caps

/-- The wheel pattern cannot match an archive-form filename: after the name
and the leading version digit there is no `-` left for the pattern's second
literal. -/
theorem wheel_no_match_sdist (nm vr : List Char) (d : Char) (ext : List Char) (caps : Caps)
    (hnmc : ∀ c ∈ nm, isNameChar c = true)
    (hvr : ∀ c ∈ vr, isClaimVerChar c = true)
    (hext : ext ∈ sdistExts) :
    runToks wheelToks (nm ++ ('-' :: (d :: (vr ++ ('.' :: ext))))) caps = none := by
  have hdash : '-' ∉ vr ++ ('.' :: ext) := by
    intro hmem
    rcases List.mem_append.mp hmem with h1 | h1
    · exact (claimVer_ne (hvr _ h1)).1 rfl
    · rcases List.mem_cons.mp h1 with h2 | h2
      · exact absurd h2 (by decide)
      · fin_cases hext <;> exact absurd h2 (by decide)
  have hstop1 : runLen isNameChar (nm ++ ('-' :: (d :: (vr ++ ('.' :: ext))))) = nm.length :=
    runLen_append_stop _ hnmc (by decide)
  simp only [wheelToks]
  apply runToks_plusG_none
  intro k h1 hk
  rw [hstop1] at hk
  rcases Nat.lt_or_ge k nm.length with hlt | hge
  · obtain ⟨c0, l0, hdrop, hc0, _⟩ := drop_head_mem nm ('-' :: (d :: (vr ++ ('.' :: ext)))) hlt
    rw [hdrop]
    exact runToks_lit_mismatch (Ne.symm (nameChar_ne (hnmc c0 hc0)).1) _ _ _ _
  · have hkeq : k = nm.length := by omega
    subst hkeq
    rw [List.drop_left,
      show ('-' :: (d :: (vr ++ ('.' :: ext))) : List Char)
        = ['-'] ++ (d :: (vr ++ ('.' :: ext))) from rfl, runToks_lit_cons]
    cases hdig : d.isDigit with
    | false => exact runToks_clsOnce_neg hdig _ _ _ _
    | true =>
      rw [runToks_clsOnce_pos hdig]
      apply runToks_starL_none
      intro k2 hk2
      exact runToks_lit_single_none _ _ hdash k2

/-- No archive extension arises by prefixing another archive extension with a
dot and more text: the basis for the laziness analysis of the version group in
the sdist pattern. -/
theorem sdist_ext_no_split (u e a : List Char) (he : e ∈ sdistExts) (ha : a ∈ sdistExts) :
    u ++ ('.' :: e) ≠ a := by
  intro h
  have hdrop := congrArg (List.drop u.length) h
  rw [List.drop_left] at hdrop
  have hl := congrArg List.length h
  fin_cases he <;> fin_cases ha <;> simp at hl <;> rw [hl] at hdrop <;>
    exact absurd hdrop (by decide)

/-! ## The sdist pattern on a well-formed archive filename -/

theorem sdist_match (nm vr ext : List Char) (d : Char) (caps : Caps)
    (hnm : nm ≠ []) (hnmc : ∀ c ∈ nm, isNameChar c = true)
    (hd : d.isDigit = true)
    (hvr : ∀ c ∈ vr, isClaimVerChar c = true)
    (hext : ext ∈ sdistExts) :
    runToks sdistToks (nm ++ ('-' :: (d :: (vr ++ ('.' :: ext))))) caps
      = some ⟨caps.g1 ++ nm, caps.g2 ++ (d :: vr), caps.g3 ++ ext⟩ := by
  have hvr2 : ∀ c ∈ vr, isVerChar c = true := fun c hc => claimVer_isVerChar (hvr c hc)
  have hextVer : ∀ c ∈ ('.' :: ext), isVerChar c = true := by
    intro c hc
    rcases List.mem_cons.mp hc with h1 | h1
    · subst h1; decide
    · fin_cases hext <;> fin_cases h1 <;> decide
  have hextNoNl : ∀ c ∈ ext, c ≠ '\n' := by
    intro c hc
    fin_cases hext <;> fin_cases hc <;> decide
  have hstop1 : runLen isNameChar (nm ++ ('-' :: (d :: (vr ++ ('.' :: ext))))) = nm.length :=
    runLen_append_stop _ hnmc (by decide)
  have hrun2 : runLen isVerChar (vr ++ ('.' :: ext)) = vr.length + ('.' :: ext).length := by
    rw [runLen_append_all _ hvr2, runLen_all hextVer]
  simp only [sdistToks]
  apply runToks_plusG_succ hnm hstop1
  rw [show ('-' :: (d :: (vr ++ ('.' :: ext))) : List Char)
      = ['-'] ++ (d :: (vr ++ ('.' :: ext))) from rfl,
    runToks_lit_cons, runToks_clsOnce_pos hd]
  refine runToks_starL_first vr.length (by rw [hrun2]; omega) ?_ ?_
  · -- a shorter version consumption either misses the dot or dies in the
    -- extension alternation before the end of the input
    intro j hj
    obtain ⟨c0, l0, hdrop, hc0, hl0⟩ := drop_head_mem vr ('.' :: ext) hj
    rw [hdrop]
    rcases Decidable.em (c0 = '.') with hdot | hdot
    · subst hdot
      rw [show ('.' :: (l0 ++ ('.' :: ext)) : List Char)
          = ['.'] ++ (l0 ++ ('.' :: ext)) from rfl, runToks_lit_cons]
      apply runToks_altLit_none
      intro al hal
      rcases hp : al.isPrefixOf (l0 ++ ('.' :: ext)) with hf | ht
      · exact Or.inl rfl
      · refine Or.inr ?_
        apply runToks_endAnchor_ne
        · intro h0
          have hwhole : l0 ++ ('.' :: ext) = al := by
            have hdec := ipo_decompose hp
            rw [h0, List.append_nil] at hdec
            exact hdec
          exact sdist_ext_no_split l0 ext al hext hal hwhole
        · intro heq
          have hmem : '\n' ∈ l0 ++ ('.' :: ext) :=
            List.drop_subset _ _ (heq ▸ List.mem_cons_self '\n' [])
          rcases List.mem_append.mp hmem with h1 | h1
          · exact (claimVer_ne (hvr _ (hl0 _ h1))).2.1 rfl
          · rcases List.mem_cons.mp h1 with h2 | h2
            · exact absurd h2 (by decide)
            · exact hextNoNl _ h2 rfl
    · exact runToks_lit_mismatch (Ne.symm hdot) _ _ _ _
  · rw [List.drop_left' rfl, List.take_left' rfl,
      show ('.' :: ext : List Char) = ['.'] ++ ext from rfl, runToks_lit_cons]
    fin_cases hext <;>
      simp [runToks, firstSome, List.isPrefixOf, appendCap]

/-! ## Dispatch lemmas for `extract_package_metadata` -/

theorem extract_eq_of_wheel (filename : String) (caps : Caps)
    (h : runToks wheelToks (basename filename.toList) initCaps = some caps) :
    extract_package_metadata filename = ⟨String.mk caps.g1, String.mk caps.g2⟩ := by
  simp only [String.toList] at h
  simp [extract_package_metadata, h]

theorem extract_eq_of_sdist (filename : String) (caps : Caps)
    (hw : runToks wheelToks (basename filename.toList) initCaps = none)
    (h : runToks sdistToks (basename filename.toList) initCaps = some caps) :
    extract_package_metadata filename = ⟨String.mk caps.g1, String.mk caps.g2⟩ := by
  simp only [String.toList] at hw h
  simp [extract_package_metadata, hw, h]

/-! ## Claim C2 -/

/-- C2 (amended).  For every filename of the wheel form
`name-version-remainder.whl` (name over `[a-zA-Z0-9_]`, nonempty; version
beginning with a digit and over letters/digits/dots; remainder free of newline
and slash characters) extraction returns exactly the name and the version, with
no trailing wheel-tag fields captured into the version; and for every filename
of the archive form `name-version.ext` with `ext ∈ {tar.gz, zip, tar.bz2, egg}`
extraction returns exactly the name and the version.  The wheel pattern is
tried first; on archive-form filenames it fails, so the first matching pattern
(the sdist pattern) wins. -/
theorem extract_package_metadata_forms :
    (∀ (nm vr rem : List Char) (d : Char),
      nm ≠ [] → (∀ c ∈ nm, isNameChar c = true) → d.isDigit = true →
      (∀ c ∈ vr, isClaimVerChar c = true) → (∀ c ∈ rem, c ≠ '\n' ∧ c ≠ '/') →
      extract_package_metadata
          (String.mk (nm ++ ('-' :: (d :: (vr ++ ('-' :: (rem ++ ['.', 'w', 'h', 'l'])))))))
        = ⟨String.mk nm, String.mk (d :: vr)⟩)
    ∧ (∀ (nm vr ext : List Char) (d : Char),
      nm ≠ [] → (∀ c ∈ nm, isNameChar c = true) → d.isDigit = true →
      (∀ c ∈ vr, isClaimVerChar c = true) → ext ∈ sdistExts →
      extract_package_metadata (String.mk (nm ++ ('-' :: (d :: (vr ++ ('.' :: ext))))))
        = ⟨String.mk nm, String.mk (d :: vr)⟩) := by
  constructor
  · intro nm vr rem d hnm hnmc hd hvr hrem
    have hslash : ∀ c ∈ nm ++ ('-' :: (d :: (vr ++ ('-' :: (rem ++ ['.', 'w', 'h', 'l']))))),
        c ≠ '/' := by
      intro c hc
      rcases List.mem_append.mp hc with h1 | h1
      · exact (nameChar_ne (hnmc c h1)).2.1
      · rcases List.mem_cons.mp h1 with h2 | h2
        · subst h2; decide
        · rcases List.mem_cons.mp h2 with h3 | h3
          · subst h3; exact (digit_facts hd).2.1
          · rcases List.mem_append.mp h3 with h4 | h4
            · exact (claimVer_ne (hvr c h4)).2.2
            · rcases List.mem_cons.mp h4 with h5 | h5
              · subst h5; decide
              · rcases List.mem_append.mp h5 with h6 | h6
                · exact (hrem c h6).2
                · fin_cases h6 <;> decide
    rw [extract_eq_of_wheel _ ⟨initCaps.g1 ++ nm, initCaps.g2 ++ (d :: vr), initCaps.g3 ++ rem⟩
      (by
        rw [show (String.mk (nm ++ ('-' :: (d :: (vr ++ ('-' :: (rem ++ ['.', 'w', 'h', 'l']))))))).toList
            = nm ++ ('-' :: (d :: (vr ++ ('-' :: (rem ++ ['.', 'w', 'h', 'l']))))) from rfl,
          basename_eq_self hslash]
        exact wheel_match nm vr rem d initCaps hnm hnmc hd hvr (fun c hc => (hrem c hc).1))]
    simp [initCaps]
  · intro nm vr ext d hnm hnmc hd hvr hext
    have hslash : ∀ c ∈ nm ++ ('-' :: (d :: (vr ++ ('.' :: ext)))), c ≠ '/' := by
      intro c hc
      rcases List.mem_append.mp hc with h1 | h1
      · exact (nameChar_ne (hnmc c h1)).2.1
      · rcases List.mem_cons.mp h1 with h2 | h2
        · subst h2; decide
        · rcases List.mem_cons.mp h2 with h3 | h3
          · subst h3; exact (digit_facts hd).2.1
          · rcases List.mem_append.mp h3 with h4 | h4
            · exact (claimVer_ne (hvr c h4)).2.2
            · rcases List.mem_cons.mp h4 with h5 | h5
              · subst h5; decide
              · fin_cases hext <;> fin_cases h5 <;> decide
    have htl : (String.mk (nm ++ ('-' :: (d :: (vr ++ ('.' :: ext)))))).toList
        = nm ++ ('-' :: (d :: (vr ++ ('.' :: ext)))) := rfl
    rw [extract_eq_of_sdist _ ⟨initCaps.g1 ++ nm, initCaps.g2 ++ (d :: vr), initCaps.g3 ++ ext⟩
      (by
        rw [htl, basename_eq_self hslash]
        exact wheel_no_match_sdist nm vr d ext initCaps hnmc hvr hext)
      (by
        rw [htl, basename_eq_self hslash]
        exact sdist_match nm vr ext d initCaps hnm hnmc hd hvr hext)]
    simp [initCaps]

/-- C2, counterexample to the unamended claim: `a-1.0-x\ny.whl` is of the wheel
form `name-version-remainder.whl` with name `a`, version `1.0` and (per the
claim, unconstrained) remainder `x\ny`, yet extraction does not return
`{a, 1.0}`: Python's `.` does not match a newline without `re.DOTALL`, so the
wheel pattern fails and the fallback is returned. -/
theorem extract_wheel_newline_counterexample :
    extract_package_metadata "a-1.0-x\ny.whl" ≠ ⟨"a", "1.0"⟩ ∧
    extract_package_metadata "a-1.0-x\ny.whl" = ⟨"unknown", "0.0.0"⟩ := by decide

/-- C2, witness: the two spec examples, via `extract_package_metadata_forms`. -/
theorem extract_package_metadata_forms_witness :
    extract_package_metadata "ffactory_rs-0.1.2-cp313-abi3-manylinux_2_17.whl"
      = ⟨"ffactory_rs", "0.1.2"⟩ ∧
    extract_package_metadata "pkg_a-1.0.0.tar.gz" = ⟨"pkg_a", "1.0.0"⟩ := by
  constructor
  · exact extract_package_metadata_forms.1 "ffactory_rs".toList ".1.2".toList
      "cp313-abi3-manylinux_2_17".toList '0' (by decide) (by decide) (by decide) (by decide)
      (by decide)
  · exact extract_package_metadata_forms.2 "pkg_a".toList ".0.0".toList
      ['t', 'a', 'r', '.', 'g', 'z'] '1' (by decide) (by decide) (by decide) (by decide)
      (by decide)

/-! ## Claim C7 -/

/-- When both matchers fail, extraction takes the fallback branch. -/
theorem extract_fallback_aux (filename : String)
    (hw : runToks wheelToks (basename filename.toList) initCaps = none)
    (hs : runToks sdistToks (basename filename.toList) initCaps = none) :
    extract_package_metadata filename = ⟨"unknown", "0.0.0"⟩ := by
  simp only [String.toList] at hw hs
  simp [extract_package_metadata, hw, hs]

/-- C7.  For every input filename matching neither the wheel pattern nor the
sdist pattern, `extract_package_metadata` returns the fallback pair
`{"unknown", "0.0.0"}`; being a total function of the embedding, it never
raises, so processing continues with placeholder metadata. -/
theorem extract_fallback_no_match (filename : String)
    (hw : runToks wheelToks (basename filename.toList) initCaps = none)
    (hs : runToks sdistToks (basename filename.toList) initCaps = none) :
    extract_package_metadata filename = ⟨"unknown", "0.0.0"⟩ :=
  extract_fallback_aux filename hw hs

/-- C7, witness: `README.md` matches neither pattern. -/
theorem extract_fallback_no_match_witness :
    extract_package_metadata "README.md" = ⟨"unknown", "0.0.0"⟩ :=
  extract_fallback_no_match "README.md" (by decide) (by decide)

/-! ## Claim C10 -/

/-- Both patterns share the shape `name`, `-`, leading version digit; when the
character after the first hyphen is not a digit, both fail outright. -/
theorem prefix3_none (ts : List Tok) (a : List Char) (c : Char) (tail : List Char)
    (hac : ∀ x ∈ a, isNameChar x = true) (hc : c.isDigit = false) :
    runToks (Tok.plusG isNameChar 1 :: Tok.lit ['-'] :: Tok.clsOnce Char.isDigit 2 :: ts)
      (a ++ ('-' :: (c :: tail))) initCaps = none := by
  have hstop : runLen isNameChar (a ++ ('-' :: (c :: tail))) = a.length :=
    runLen_append_stop _ hac (by decide)
  apply runToks_plusG_none
  intro k h1 hk
  rw [hstop] at hk
  rcases Nat.lt_or_ge k a.length with hlt | hge
  · obtain ⟨c0, l0, hdrop, hc0, _⟩ := drop_head_mem a ('-' :: (c :: tail)) hlt
    rw [hdrop]
    exact runToks_lit_mismatch (Ne.symm (nameChar_ne (hac c0 hc0)).1) _ _ _ _
  · have hkeq : k = a.length := by omega
    subst hkeq
    rw [List.drop_left, show ('-' :: (c :: tail) : List Char) = ['-'] ++ (c :: tail) from rfl,
      runToks_lit_cons]
    exact runToks_clsOnce_neg hc _ _ _ _

/-- C10 (amended).  For a filename whose package-name portion contains a
hyphen, the regex name group (which excludes `-`) stops at the first hyphen,
and when the character right after that hyphen is not a digit — as in
`my-pkg-1.0.0.tar.gz` — the required leading version digit is missing, so
neither pattern matches, extraction returns the fallback `{unknown, 0.0.0}`,
and the upload form data for such a file carries the placeholder name and
version.  (When the fragment after the first hyphen does begin with a digit,
the wheel pattern can still match with a truncated name: see the
counterexample.) -/
theorem hyphenated_name_fallback (a : List Char) (c : Char) (tail : List Char)
    (ha : a ≠ []) (hac : ∀ x ∈ a, isNameChar x = true)
    (hc : c.isDigit = false) (hcs : c ≠ '/') (htail : ∀ x ∈ tail, x ≠ '/') :
    extract_package_metadata (String.mk (a ++ ('-' :: (c :: tail)))) = ⟨"unknown", "0.0.0"⟩
    ∧ ∀ content, (mkUploadData (String.mk (a ++ ('-' :: (c :: tail)))) content).name = "unknown"
      ∧ (mkUploadData (String.mk (a ++ ('-' :: (c :: tail)))) content).version = "0.0.0" := by
  have hslash : ∀ x ∈ a ++ ('-' :: (c :: tail)), x ≠ '/' := by
    intro x hx
    rcases List.mem_append.mp hx with h1 | h1
    · exact (nameChar_ne (hac x h1)).2.1
    · rcases List.mem_cons.mp h1 with h2 | h2
      · subst h2; decide
      · rcases List.mem_cons.mp h2 with h3 | h3
        · subst h3; exact hcs
        · exact htail x h3
  have htl : (String.mk (a ++ ('-' :: (c :: tail)))).toList = a ++ ('-' :: (c :: tail)) := rfl
  have hmain : extract_package_metadata (String.mk (a ++ ('-' :: (c :: tail))))
      = ⟨"unknown", "0.0.0"⟩ := by
    apply extract_fallback_aux
    · rw [htl, basename_eq_self hslash]
      simp only [wheelToks]
      exact prefix3_none _ a c tail hac hc
    · rw [htl, basename_eq_self hslash]
      simp only [sdistToks]
      exact prefix3_none _ a c tail hac hc
  refine ⟨hmain, fun content => ?_⟩
  constructor <;> simp [mkUploadData, hmain]

/-- C10, counterexample to the unamended claim: the package-name portion of
`my-2pkg-1.0-x.whl` is `my-2pkg`, which contains a hyphen, yet the wheel
pattern matches with the truncated name `my` and version `2pkg` (the fragment
after the first hyphen begins with a digit), so extraction does not return the
fallback. -/
theorem hyphenated_name_counterexample :
    extract_package_metadata "my-2pkg-1.0-x.whl" = ⟨"my", "2pkg"⟩ ∧
    extract_package_metadata "my-2pkg-1.0-x.whl" ≠ ⟨"unknown", "0.0.0"⟩ := by decide

/-- C10, witness: the claim's own example `my-pkg-1.0.0.tar.gz`. -/
theorem hyphenated_name_fallback_witness :
    extract_package_metadata "my-pkg-1.0.0.tar.gz" = ⟨"unknown", "0.0.0"⟩ ∧
    (mkUploadData "my-pkg-1.0.0.tar.gz" []).name = "unknown" := by
  have h := hyphenated_name_fallback "my".toList 'p' "kg-1.0.0.tar.gz".toList
    (by decide) (by decide) (by decide) (by decide) (by decide)
  exact ⟨h.1, (h.2 []).1⟩

/-! ## Claim C6 -/

theorem foldl_append_eq_flatten (chs : List (List Nat)) (acc : List Nat) :
    chs.foldl (fun a c2 => a ++ c2) acc = acc ++ chs.flatten := by
  induction chs generalizing acc with
  | nil => simp
  | cons x xs ih => simp [ih, List.append_assoc]

theorem chunksGo_flatten {cs : Nat} (hcs : 1 ≤ cs) :
    ∀ (fuel : Nat) (l : List Nat), l.length ≤ fuel → (chunksGo cs fuel l).flatten = l := by
  intro fuel
  induction fuel with
  | zero =>
    intro l hl
    have : l = [] := List.eq_nil_of_length_eq_zero (by omega)
    subst this
    rfl
  | succ n ih =>
    intro l hl
    cases l with
    | nil => rfl
    | cons x xs =>
      have hrec := ih ((x :: xs).drop cs) (by
        rw [List.length_drop]
        simp only [List.length_cons] at hl ⊢
        omega)
      simp only [chunksGo, List.flatten_cons, hrec]
      exact List.take_append_drop cs (x :: xs)

theorem chunksOf_flatten {cs : Nat} (hcs : 1 ≤ cs) (l : List Nat) :
    (chunksOf cs l).flatten = l := chunksGo_flatten hcs l.length l le_rfl

/-- C6.  Hashing is deterministic and independent of the read-chunk size: for
any positive chunk size the chunked hash equals the digests of the whole
content hashed at once; `compute_file_hash` (8 KiB chunks) therefore returns
the whole-content MD5 and SHA-256 hex digests, and on a zero-length file it
returns the well-known empty-input digests. -/
theorem compute_file_hash_spec :
    (∀ (content : List Nat) (cs : Nat), 1 ≤ cs →
      computeFileHashChunked cs content = (md5hex content, sha256hex content))
    ∧ (∀ content, compute_file_hash content = (md5hex content, sha256hex content))
    ∧ compute_file_hash [] = ("d41d8cd98f00b204e9800998ecf8427e",
        "e3b0c44298fc1c149afbf4c8996fb92427ae41e4649b934ca495991b7852b855") := by
  have h1 : ∀ (content : List Nat) (cs : Nat), 1 ≤ cs →
      computeFileHashChunked cs content = (md5hex content, sha256hex content) := by
    intro content cs hcs
    simp [computeFileHashChunked, foldl_append_eq_flatten, chunksOf_flatten hcs]
  refine ⟨h1, fun content => h1 content 8192 (by omega), by decide⟩

/-- C6, witness: hashing `abc` with chunk size 1 gives the whole-content
digests. -/
theorem compute_file_hash_spec_witness :
    computeFileHashChunked 1 [97, 98, 99] = ("900150983cd24fb0d6963f7d28e17f72",
      "ba7816bf8f01cfea414140de5dae2223b00361a396177a9cb410ff61f20015ad") := by
  rw [compute_file_hash_spec.1 [97, 98, 99] 1 (by omega)]
  decide

/-! ## Claim C1 -/

theorem writeChunks_eq_flatten (chunks : List (List Nat)) :
    writeChunks chunks = chunks.flatten := by
  induction chunks with
  | nil => rfl
  | cons x xs ih =>
    cases x with
    | nil => simpa [writeChunks] using ih
    | cons a as =>
      simp only [writeChunks, List.filter_cons] at ih ⊢
      simp [ih]

/-- The attempt loop only consults the outcomes of the listed attempts. -/
theorem streamGo_congr (oc oc2 : Nat → AttemptOutcome) (l : List Nat)
    (h : ∀ n ∈ l, oc n = oc2 n) :
    ∀ (f : Option (List Nat)) (le : Option Nat),
      requestsGetStreamGo oc l f le = requestsGetStreamGo oc2 l f le := by
  induction l with
  | nil => intro f le; rfl
  | cons n rest ih =>
    intro f le
    have hn := h n (List.mem_cons_self n rest)
    simp only [requestsGetStreamGo, hn]
    cases oc2 n with
    | success chunks => rfl
    | failBefore e => exact ih (fun m hm => h m (List.mem_cons_of_mem n hm)) _ _
    | failDuring e w => exact ih (fun m hm => h m (List.mem_cons_of_mem n hm)) _ _

/-- Failed attempts are remembered and skipped over. -/
theorem streamGo_skip_failures (oc : Nat → AttemptOutcome) (l rest : List Nat)
    (hfail : ∀ n ∈ l, isSuccessAttempt (oc n) = false) :
    ∀ (f : Option (List Nat)) (le : Option Nat), ∃ f2 le2,
      requestsGetStreamGo oc (l ++ rest) f le = requestsGetStreamGo oc rest f2 le2 := by
  induction l with
  | nil => intro f le; exact ⟨f, le, rfl⟩
  | cons n ns ih =>
    intro f le
    simp only [List.cons_append, requestsGetStreamGo]
    cases hn : oc n with
    | success chunks =>
      have := hfail n (List.mem_cons_self n ns)
      rw [hn] at this
      exact absurd this (by simp [isSuccessAttempt])
    | failBefore e => exact ih (fun m hm => hfail m (List.mem_cons_of_mem n hm)) f (some e)
    | failDuring e w =>
      exact ih (fun m hm => hfail m (List.mem_cons_of_mem n hm)) (some (writeChunks w)) (some e)

/-- When every attempt fails, the loop returns the last attempt's error. -/
theorem streamGo_all_fail (oc : Nat → AttemptOutcome) (l : List Nat) (n : Nat)
    (hfail : ∀ m ∈ l ++ [n], isSuccessAttempt (oc m) = false) :
    ∀ (f : Option (List Nat)) (le : Option Nat),
      (requestsGetStreamGo oc (l ++ [n]) f le).1 = attemptError (oc n) := by
  induction l with
  | nil =>
    intro f le
    simp only [List.nil_append, requestsGetStreamGo]
    cases hn : oc n with
    | success chunks =>
      have := hfail n (by simp)
      rw [hn] at this
      exact absurd this (by simp [isSuccessAttempt])
    | failBefore e => simp [requestsGetStreamGo, attemptError]
    | failDuring e w => simp [requestsGetStreamGo, attemptError]
  | cons m ms ih =>
    intro f le
    simp only [List.cons_append, requestsGetStreamGo]
    cases hm : oc m with
    | success chunks =>
      have := hfail m (by simp)
      rw [hm] at this
      exact absurd this (by simp [isSuccessAttempt])
    | failBefore e => exact ih (fun x hx => hfail x (by simp at hx ⊢; tauto)) f (some e)
    | failDuring e w =>
      exact ih (fun x hx => hfail x (by simp at hx ⊢; tauto)) (some (writeChunks w)) (some e)

/-- C1.  The streaming fetch makes at most `max_attempts` attempts (the result
only depends on the outcomes of attempts `1..max_attempts`); any exception is
remembered as the last error and the next attempt is made; if some attempt
`N ≤ max_attempts` succeeds, the fetch reports success with the destination
file containing exactly the successful response body (the concatenation of its
chunks), and `download_asset` returns the destination path; if all attempts
fail, the last attempt's error is surfaced and `download_asset` raises the
failure message carrying the asset name. -/
theorem requests_get_stream_contract :
    (∀ (oc oc2 : Nat → AttemptOutcome) (m : Nat) (f : Option (List Nat)),
      (∀ k, 1 ≤ k → k ≤ m → oc k = oc2 k) →
      requests_get_stream oc m f = requests_get_stream oc2 m f)
    ∧ (∀ (oc : Nat → AttemptOutcome) (m N : Nat) (chunks : List (List Nat))
        (f : Option (List Nat)),
      1 ≤ N → N ≤ m → (∀ k, 1 ≤ k → k < N → isSuccessAttempt (oc k) = false) →
      oc N = AttemptOutcome.success chunks →
      requests_get_stream oc m f = (none, some chunks.flatten))
    ∧ (∀ (oc : Nat → AttemptOutcome) (m : Nat) (f : Option (List Nat)),
      1 ≤ m → (∀ k, 1 ≤ k → k ≤ m → isSuccessAttempt (oc k) = false) →
      (requests_get_stream oc m f).1 = attemptError (oc m))
    ∧ (∀ (oc : Nat → AttemptOutcome) (nm dd : String) (f : Option (List Nat)) (N : Nat)
        (chunks : List (List Nat)),
      1 ≤ N → N ≤ 2 → (∀ k, 1 ≤ k → k < N → isSuccessAttempt (oc k) = false) →
      oc N = AttemptOutcome.success chunks →
      download_asset oc nm dd f = (Except.ok (dd ++ "/" ++ nm), some chunks.flatten))
    ∧ (∀ (oc : Nat → AttemptOutcome) (nm dd : String) (f : Option (List Nat)),
      (∀ k, 1 ≤ k → k ≤ 2 → isSuccessAttempt (oc k) = false) →
      (download_asset oc nm dd f).1
        = Except.error ("Failed to download asset " ++ nm ++ ".")) := by
  have hcongr : ∀ (oc oc2 : Nat → AttemptOutcome) (m : Nat) (f : Option (List Nat)),
      (∀ k, 1 ≤ k → k ≤ m → oc k = oc2 k) →
      requests_get_stream oc m f = requests_get_stream oc2 m f := by
    intro oc oc2 m f h
    unfold requests_get_stream
    apply streamGo_congr
    intro n hn
    rw [List.mem_range'_1] at hn
    exact h n hn.1 (by omega)
  have hsucc : ∀ (oc : Nat → AttemptOutcome) (m N : Nat) (chunks : List (List Nat))
      (f : Option (List Nat)),
      1 ≤ N → N ≤ m → (∀ k, 1 ≤ k → k < N → isSuccessAttempt (oc k) = false) →
      oc N = AttemptOutcome.success chunks →
      requests_get_stream oc m f = (none, some chunks.flatten) := by
    intro oc m N chunks f h1 hNm hfail hN
    unfold requests_get_stream
    have hsplit : List.range' 1 m = List.range' 1 (N - 1) ++ List.range' N (m - N + 1) := by
      have := List.range'_append_1 1 (N - 1) (m - N + 1)
      rw [show 1 + (N - 1) = N from by omega] at this
      rw [show m - N + 1 + (N - 1) = m from by omega] at this
      exact this.symm
    rw [hsplit]
    obtain ⟨f2, le2, heq⟩ := streamGo_skip_failures oc (List.range' 1 (N - 1))
      (List.range' N (m - N + 1)) (by
        intro n hn
        rw [List.mem_range'_1] at hn
        exact hfail n hn.1 (by omega)) f none
    rw [heq, show m - N + 1 = (m - N) + 1 from by omega, List.range'_succ]
    simp [requestsGetStreamGo, hN, writeChunks_eq_flatten]
  have hallfail : ∀ (oc : Nat → AttemptOutcome) (m : Nat) (f : Option (List Nat)),
      1 ≤ m → (∀ k, 1 ≤ k → k ≤ m → isSuccessAttempt (oc k) = false) →
      (requests_get_stream oc m f).1 = attemptError (oc m) := by
    intro oc m f h1 hfail
    unfold requests_get_stream
    have hsplit : List.range' 1 m = List.range' 1 (m - 1) ++ [m] := by
      have := List.range'_1_concat 1 (m - 1)
      rw [show m - 1 + 1 = m from by omega] at this
      rw [show 1 + (m - 1) = m from by omega] at this
      exact this
    rw [hsplit]
    apply streamGo_all_fail
    intro x hx
    rw [hsplit.symm, List.mem_range'_1] at hx
    exact hfail x hx.1 (by omega)
  refine ⟨hcongr, hsucc, hallfail, ?_, ?_⟩
  · intro oc nm dd f N chunks h1 hN2 hfail hN
    unfold download_asset
    rw [hsucc oc 2 N chunks f h1 hN2 hfail hN]
  · intro oc nm dd f hfail
    have h := hallfail oc 2 f (by omega) hfail
    have hf2 := hfail 2 (by omega) (by omega)
    unfold download_asset
    cases hr : requests_get_stream oc 2 f with
    | mk e f2 =>
      rw [hr] at h
      cases e with
      | none =>
        simp only at h
        cases h2 : oc 2 with
        | success chunks => rw [h2] at hf2; exact absurd hf2 (by simp [isSuccessAttempt])
        | failBefore e2 => rw [h2] at h; simp [attemptError] at h
        | failDuring e2 w => rw [h2] at h; simp [attemptError] at h
      | some e0 => rfl

/-- C1, witness: a fetch failing on attempt 1 and succeeding on attempt 2
leaves exactly the response bytes; a fetch failing on both attempts makes
`download_asset` raise the message naming the asset. -/
theorem requests_get_stream_contract_witness :
    requests_get_stream (fun k => if k = 1 then AttemptOutcome.failBefore 7
      else AttemptOutcome.success [[1, 2], [3]]) 2 none = (none, some [1, 2, 3])
    ∧ (download_asset (fun _ => AttemptOutcome.failBefore 9) "a.whl" "artifacts" none).1
        = Except.error "Failed to download asset a.whl." := by
  constructor
  · exact requests_get_stream_contract.2.1 _ 2 2 [[1, 2], [3]] none (by omega) (by omega)
      (fun k hk1 hk2 => by
        have hk : k = 1 := by omega
        subst hk
        decide)
      rfl
  · exact requests_get_stream_contract.2.2.2.2 _ "a.whl" "artifacts" none
      (fun k hk1 hk2 => by decide)

/-! ## Directory and download-loop lemmas (C3, C8) -/

theorem clear_always_empty (fs : Option Dir) : clear_artifacts_dir fs = some [] := by
  cases fs <;> simp [clear_artifacts_dir, ensure_dir]

theorem mem_upsert {d : Dir} {nm : String} {c : List Nat} {entry : String × List Nat}
    (h : entry ∈ upsert d nm c) : entry ∈ d ∨ entry = (nm, c) := by
  induction d with
  | nil => simpa [upsert] using h
  | cons kv rest ih =>
    obtain ⟨k, v⟩ := kv
    by_cases hk : k = nm
    · simp only [upsert, if_pos hk] at h
      rcases List.mem_cons.mp h with h1 | h1
      · subst hk
        exact Or.inr h1
      · exact Or.inl (List.mem_cons_of_mem _ h1)
    · simp only [upsert, if_neg hk] at h
      rcases List.mem_cons.mp h with h1 | h1
      · exact Or.inl (by simp [h1])
      · rcases ih h1 with h2 | h2
        · exact Or.inl (List.mem_cons_of_mem _ h2)
        · exact Or.inr h2

theorem lookup_upsert_self (d : Dir) (nm : String) (c : List Nat) :
    lookupFile (upsert d nm c) nm = some c := by
  induction d with
  | nil => simp [upsert, lookupFile]
  | cons kv rest ih =>
    obtain ⟨k, v⟩ := kv
    by_cases hk : k = nm
    · simp [upsert, lookupFile, hk]
    · simp [upsert, lookupFile, hk, ih]

theorem lookup_upsert_ne (d : Dir) {nm k2 : String} (c : List Nat) (h : k2 ≠ nm) :
    lookupFile (upsert d nm c) k2 = lookupFile d k2 := by
  have hns : ¬ nm = k2 := fun he => h he.symm
  induction d with
  | nil => simp [upsert, lookupFile, hns]
  | cons kv rest ih =>
    obtain ⟨k, v⟩ := kv
    by_cases hk : k = nm
    · subst hk
      simp [upsert, lookupFile, hns]
    · simp [upsert, lookupFile, hk, ih]

/-- The error component of the fetch does not depend on the prior state of the
destination file. -/
theorem streamGo_err_indep (oc : Nat → AttemptOutcome) (l : List Nat) :
    ∀ (f f2 : Option (List Nat)) (le : Option Nat),
      (requestsGetStreamGo oc l f le).1 = (requestsGetStreamGo oc l f2 le).1 := by
  induction l with
  | nil => intro f f2 le; rfl
  | cons n rest ih =>
    intro f f2 le
    simp only [requestsGetStreamGo]
    cases oc n with
    | success chunks => rfl
    | failBefore e => exact ih _ _ _
    | failDuring e w => exact ih _ _ _

theorem stream_err_indep (oc : Nat → AttemptOutcome) (m : Nat) (f f2 : Option (List Nat)) :
    (requests_get_stream oc m f).1 = (requests_get_stream oc m f2).1 :=
  streamGo_err_indep oc _ f f2 none

theorem runDownloads_cons_succ {a : Asset} {rest : List Asset} {dir : Dir}
    {failed : List String} {c : List Nat}
    (hr : requests_get_stream a.oc 2 (lookupFile dir a.name) = (none, some c)) :
    runDownloads (a :: rest) dir failed = runDownloads rest (upsert dir a.name c) failed := by
  simp only [runDownloads, download_asset, hr]

theorem runDownloads_cons_succ_none {a : Asset} {rest : List Asset} {dir : Dir}
    {failed : List String}
    (hr : requests_get_stream a.oc 2 (lookupFile dir a.name) = (none, none)) :
    runDownloads (a :: rest) dir failed = runDownloads rest dir failed := by
  simp only [runDownloads, download_asset, hr]

theorem runDownloads_cons_fail {a : Asset} {rest : List Asset} {dir : Dir}
    {failed : List String} {e : Nat} {c : List Nat}
    (hr : requests_get_stream a.oc 2 (lookupFile dir a.name) = (some e, some c)) :
    runDownloads (a :: rest) dir failed
      = runDownloads rest (upsert dir a.name c) (failed ++ [a.name]) := by
  simp only [runDownloads, download_asset, hr]

theorem runDownloads_cons_fail_none {a : Asset} {rest : List Asset} {dir : Dir}
    {failed : List String} {e : Nat}
    (hr : requests_get_stream a.oc 2 (lookupFile dir a.name) = (some e, none)) :
    runDownloads (a :: rest) dir failed = runDownloads rest dir (failed ++ [a.name]) := by
  simp only [runDownloads, download_asset, hr]

/-- The failure list collects exactly the names of the assets whose downloads
exhaust both attempts, in order, and the loop continues past them. -/
theorem runDownloads_failed (l : List Asset) :
    ∀ (dir : Dir) (failed : List String),
      (runDownloads l dir failed).2 = failed ++ downloadFailures l := by
  induction l with
  | nil => intro dir failed; simp [runDownloads, downloadFailures]
  | cons a rest ih =>
    intro dir failed
    have hse : streamErrs a = (requests_get_stream a.oc 2 (lookupFile dir a.name)).1.isSome := by
      unfold streamErrs
      rw [stream_err_indep a.oc 2 none (lookupFile dir a.name)]
    cases hr : requests_get_stream a.oc 2 (lookupFile dir a.name) with
    | mk e f2 =>
      rw [hr] at hse
      cases e with
      | none =>
        cases f2 with
        | none =>
          rw [runDownloads_cons_succ_none hr, ih]
          simp [downloadFailures, List.filter_cons, hse]
        | some c =>
          rw [runDownloads_cons_succ hr, ih]
          simp [downloadFailures, List.filter_cons, hse]
      | some e0 =>
        cases f2 with
        | none =>
          rw [runDownloads_cons_fail_none hr, ih]
          simp [downloadFailures, List.filter_cons, hse]
        | some c =>
          rw [runDownloads_cons_fail hr, ih]
          simp [downloadFailures, List.filter_cons, hse]

/-- Assets not named `nm` never touch the file `nm`. -/
theorem runDownloads_lookup_preserved (l : List Asset) :
    ∀ (dir : Dir) (failed : List String) (nm : String), nm ∉ l.map Asset.name →
      lookupFile (runDownloads l dir failed).1 nm = lookupFile dir nm := by
  induction l with
  | nil => intro dir failed nm h; rfl
  | cons a rest ih =>
    intro dir failed nm h
    simp only [List.map_cons, List.mem_cons, not_or] at h
    cases hr : requests_get_stream a.oc 2 (lookupFile dir a.name) with
    | mk e f2 =>
      cases e with
      | none =>
        cases f2 with
        | none => rw [runDownloads_cons_succ_none hr]; exact ih _ _ _ (by simpa using h.2)
        | some c =>
          rw [runDownloads_cons_succ hr, ih _ _ _ (by simpa using h.2)]
          exact lookup_upsert_ne dir c h.1
      | some e0 =>
        cases f2 with
        | none => rw [runDownloads_cons_fail_none hr]; exact ih _ _ _ (by simpa using h.2)
        | some c =>
          rw [runDownloads_cons_fail hr, ih _ _ _ (by simpa using h.2)]
          exact lookup_upsert_ne dir c h.1

/-- A successfully downloading asset ends with exactly its response bytes on
disk, whatever the other assets in the run do. -/
theorem runDownloads_lookup_good (body : Asset → List Nat) (l : List Asset) :
    ∀ (dir : Dir) (failed : List String) (a : Asset), a ∈ l →
      streamSucceedsWith a (body a) → (l.map Asset.name).Nodup →
      lookupFile (runDownloads l dir failed).1 a.name = some (body a) := by
  induction l with
  | nil => intro _ _ _ h; exact absurd h (by simp)
  | cons b rest ih =>
    intro dir failed a ha hsucc hnodup
    rw [List.map_cons, List.nodup_cons] at hnodup
    rcases List.mem_cons.mp ha with h1 | h1
    · subst h1
      rw [runDownloads_cons_succ (hsucc (lookupFile dir a.name))]
      rw [runDownloads_lookup_preserved rest _ _ _ hnodup.1]
      exact lookup_upsert_self dir a.name (body a)
    · have hne : a.name ∈ rest.map Asset.name := List.mem_map_of_mem Asset.name h1
      cases hr : requests_get_stream b.oc 2 (lookupFile dir b.name) with
      | mk e f2 =>
        cases e with
        | none =>
          cases f2 with
          | none => rw [runDownloads_cons_succ_none hr]; exact ih _ _ a h1 hsucc hnodup.2
          | some c => rw [runDownloads_cons_succ hr]; exact ih _ _ a h1 hsucc hnodup.2
        | some e0 =>
          cases f2 with
          | none => rw [runDownloads_cons_fail_none hr]; exact ih _ _ a h1 hsucc hnodup.2
          | some c => rw [runDownloads_cons_fail hr]; exact ih _ _ a h1 hsucc hnodup.2

/-- Every file present after the loop is either a leftover of the starting
directory or was written by some asset of the run. -/
theorem runDownloads_mem (l : List Asset) :
    ∀ (dir : Dir) (failed : List String) (entry : String × List Nat),
      entry ∈ (runDownloads l dir failed).1 →
      entry ∈ dir ∨ ∃ a ∈ l, entry.1 = a.name ∧
        ∃ f0, (requests_get_stream a.oc 2 f0).2 = some entry.2 := by
  induction l with
  | nil => intro dir failed entry h; exact Or.inl h
  | cons a rest ih =>
    intro dir failed entry h
    have hnext : ∀ (dir2 : Dir) (failed2 : List String),
        entry ∈ (runDownloads rest dir2 failed2).1 →
        entry ∈ dir2 ∨ ∃ b ∈ a :: rest, entry.1 = b.name ∧
          ∃ f0, (requests_get_stream b.oc 2 f0).2 = some entry.2 := by
      intro dir2 failed2 h2
      rcases ih dir2 failed2 entry h2 with h3 | ⟨b, hb, h4⟩
      · exact Or.inl h3
      · exact Or.inr ⟨b, List.mem_cons_of_mem a hb, h4⟩
    cases hr : requests_get_stream a.oc 2 (lookupFile dir a.name) with
    | mk e f2 =>
      have hwrote : ∀ c, f2 = some c → entry ∈ upsert dir a.name c →
          entry ∈ dir ∨ ∃ b ∈ a :: rest, entry.1 = b.name ∧
            ∃ f0, (requests_get_stream b.oc 2 f0).2 = some entry.2 := by
        intro c hc hm
        rcases mem_upsert hm with h3 | h3
        · exact Or.inl h3
        · refine Or.inr ⟨a, List.mem_cons_self a rest, by rw [h3], ?_⟩
          refine ⟨lookupFile dir a.name, ?_⟩
          rw [hr, hc, h3]
      cases e with
      | none =>
        cases f2 with
        | none =>
          rw [runDownloads_cons_succ_none hr] at h
          exact hnext _ _ h
        | some c =>
          rw [runDownloads_cons_succ hr] at h
          rcases hnext _ _ h with h3 | h3
          · exact hwrote c rfl h3
          · exact Or.inr h3
      | some e0 =>
        cases f2 with
        | none =>
          rw [runDownloads_cons_fail_none hr] at h
          exact hnext _ _ h
        | some c =>
          rw [runDownloads_cons_fail hr] at h
          rcases hnext _ _ h with h3 | h3
          · exact hwrote c rfl h3
          · exact Or.inr h3

/-- C3.  The working directory is removed and recreated (left existing and
empty) before any asset of the current run is written: the download phase's
result is independent of whatever the filesystem held before, and every file
present afterwards was written by an asset of the current run — no artifact of
a previous invocation survives. -/
theorem downloadPhase_clean :
    (∀ fs, clear_artifacts_dir fs = some [])
    ∧ (∀ assets fs fs2, downloadPhase assets fs = downloadPhase assets fs2)
    ∧ (∀ assets fs entry, entry ∈ (downloadPhase assets fs).1 →
        ∃ a ∈ assets, entry.1 = a.name ∧
          ∃ f0, (requests_get_stream a.oc 2 f0).2 = some entry.2) := by
  refine ⟨clear_always_empty, ?_, ?_⟩
  · intro assets fs fs2
    unfold downloadPhase
    rw [clear_always_empty, clear_always_empty]
  · intro assets fs entry h
    unfold downloadPhase at h
    rw [clear_always_empty] at h
    rcases runDownloads_mem assets [] [] entry h with h1 | h1
    · exact absurd h1 (by simp)
    · exact h1

/-- C3, witness: a directory seeded with a stale file, after the clearing step
and one download, contains only a file written during the current run. -/
theorem downloadPhase_clean_witness :
    ∃ a ∈ [Asset.mk "a-1.0.0.zip" (fun _ => AttemptOutcome.success [[5]])],
      ("a-1.0.0.zip", ([5] : List Nat)).1 = a.name ∧
      ∃ f0, (requests_get_stream a.oc 2 f0).2 = some ("a-1.0.0.zip", ([5] : List Nat)).2 :=
  downloadPhase_clean.2.2 [Asset.mk "a-1.0.0.zip" (fun _ => AttemptOutcome.success [[5]])]
    (some [("stale.whl", [0])]) ("a-1.0.0.zip", [5]) (by decide)

/-- C8.  A permanent download failure of one asset is recovered locally: its
name is collected into the failure list (and nothing else is), and every other
asset still downloads, ending with exactly its own bytes on disk — the loop
does not abort early. -/
theorem runDownloads_failure_isolated (body : Asset → List Nat) (pre post : List Asset)
    (bad : Asset)
    (hgood : ∀ a ∈ pre ++ post, streamSucceedsWith a (body a))
    (hbad : streamFails bad)
    (hnodup : ((pre ++ bad :: post).map Asset.name).Nodup) :
    (runDownloads (pre ++ bad :: post) [] []).2 = [bad.name]
    ∧ ∀ a ∈ pre ++ post,
        lookupFile (runDownloads (pre ++ bad :: post) [] []).1 a.name = some (body a) := by
  have hgf : ∀ a ∈ pre ++ post, streamErrs a = false := by
    intro a ha
    unfold streamErrs
    rw [hgood a ha none]
    rfl
  have hbf : streamErrs bad = true := by
    unfold streamErrs
    exact hbad none
  constructor
  · rw [runDownloads_failed]
    have h1 : pre.filter streamErrs = [] :=
      List.filter_eq_nil_iff.mpr
        (fun a ha => by simp [hgf a (List.mem_append_left post ha)])
    have h2 : post.filter streamErrs = [] :=
      List.filter_eq_nil_iff.mpr
        (fun a ha => by simp [hgf a (List.mem_append_right pre ha)])
    simp [downloadFailures, List.filter_append, List.filter_cons, h1, h2, hbf]
  · intro a ha
    have hmem : a ∈ pre ++ bad :: post := by
      rcases List.mem_append.mp ha with h1 | h1
      · exact List.mem_append_left _ h1
      · exact List.mem_append_right _ (List.mem_cons_of_mem bad h1)
    exact runDownloads_lookup_good body _ [] [] a hmem (hgood a ha) hnodup

/-- C8, witness: of two assets, the first failing permanently, the second
still ends up downloaded and only the first is collected as failed. -/
theorem runDownloads_failure_isolated_witness :
    (runDownloads [Asset.mk "a-1.0.0.zip" (fun _ => AttemptOutcome.failBefore 3),
        Asset.mk "b-2.0.0.tar.gz" (fun _ => AttemptOutcome.success [[9]])] [] []).2
      = ["a-1.0.0.zip"]
    ∧ lookupFile (runDownloads [Asset.mk "a-1.0.0.zip" (fun _ => AttemptOutcome.failBefore 3),
        Asset.mk "b-2.0.0.tar.gz" (fun _ => AttemptOutcome.success [[9]])] [] []).1
        "b-2.0.0.tar.gz" = some [9] := by
  have h := runDownloads_failure_isolated (fun _ => [9]) []
    [Asset.mk "b-2.0.0.tar.gz" (fun _ => AttemptOutcome.success [[9]])]
    (Asset.mk "a-1.0.0.zip" (fun _ => AttemptOutcome.failBefore 3))
    (fun a ha => by
      simp at ha
      subst ha
      intro f0
      rfl)
    (fun f0 => rfl)
    (by decide)
  exact ⟨h.1, h.2 (Asset.mk "b-2.0.0.tar.gz" (fun _ => AttemptOutcome.success [[9]])) (by simp)⟩

/-! ## Claim C4 -/

/-- An upload-stage error (of any kind) makes the `download` command exit 1
once the configuration checks passed and the release had assets. -/
theorem exit_one_of_upload_error (tok repo : Option String) (fs : Option Dir)
    (assets : List Asset) (resp : String → HttpResp) (srv : Option String) (emsg : String)
    (ht : pyTruthy tok = true) (hr : pyTruthy repo = true) (hne : assets ≠ [])
    (hup : (upload_to_devpi srv resp (downloadPhase assets fs).1).2 = Except.error emsg) :
    (downloadCommand tok repo fs false srv (Except.ok assets) resp).exitCode = 1 := by
  unfold downloadCommand
  rw [ht, hr]
  simp only [Bool.true_eq_false, if_false]
  have hie : assets.isEmpty = false := by
    cases assets with
    | nil => exact absurd rfl hne
    | cons a rest => rfl
  rw [hie]
  simp only [Bool.false_eq_true, if_false]
  cases hd : downloadPhase assets fs with
  | mk dir failed =>
    rw [hd] at hup
    simp only
    cases hu : upload_to_devpi srv resp dir with
    | mk uploaded outcome =>
      rw [hu] at hup
      simp only at hup
      rw [hup]

/-- C4 (amended).  In the direct upload strategy, a 4xx/5xx response (the
statuses for which `raise_for_status` raises) to any single file's upload
aborts the remaining upload work: the result is the abort message naming the
failing file with at most the first 200 characters of the response body, the
files uploaded before the failure stay uploaded (exactly the prefix before the
failing file; no rollback), the files after it are never attempted, and the
`download` command then exits with code 1. -/
theorem upload_http_error_contract :
    (∀ (resp : String → HttpResp) (pre post : List (String × List Nat))
        (bad : String × List Nat),
      (∀ f ∈ pre, isHttpError (resp f.1).status = false) →
      isHttpError (resp bad.1).status = true →
      ∀ (uploaded : List (String × UploadData)) (cnt : Nat),
        uploadFiles resp (pre ++ bad :: post) uploaded cnt
          = (uploaded ++ pre.map (fun f => (f.1, mkUploadData f.1 f.2)),
             Except.error (uploadErrorMsg bad.1 (resp bad.1))))
    ∧ (∀ (fn : String) (r : HttpResp),
      uploadErrorMsg fn r = "上传 " ++ fn ++ " 失败: HTTP " ++ toString r.status
          ++ (if r.text != "" then ": " ++ String.mk (r.text.toList.take 200) else "")
        ∧ (r.text.toList.take 200).length ≤ 200)
    ∧ (∀ (tok repo : Option String) (fs : Option Dir) (assets : List Asset)
        (resp : String → HttpResp) (srv : Option String) (emsg : String),
      pyTruthy tok = true → pyTruthy repo = true → assets ≠ [] →
      (upload_to_devpi srv resp (downloadPhase assets fs).1).2 = Except.error emsg →
      (downloadCommand tok repo fs false srv (Except.ok assets) resp).exitCode = 1) := by
  refine ⟨?_, ?_, ?_⟩
  · intro resp pre post bad hpre hbad
    induction pre with
    | nil =>
      intro uploaded cnt
      obtain ⟨bn, bc⟩ := bad
      simp [uploadFiles, hbad]
    | cons f rest ih =>
      intro uploaded cnt
      obtain ⟨fn, content⟩ := f
      have hf : isHttpError (resp fn).status = false := hpre (fn, content) (by simp)
      simp only [List.cons_append, uploadFiles, hf, Bool.false_eq_true, if_false]
      rw [List.append_eq,
        ih (fun g hg => hpre g (by simp [hg])) (uploaded ++ [(fn, mkUploadData fn content)])
          (cnt + 1)]
      simp [List.append_assoc]
  · intro fn r
    refine ⟨rfl, ?_⟩
    rw [List.length_take]
    omega
  · intro tok repo fs assets resp srv emsg ht hr hne hup
    exact exit_one_of_upload_error tok repo fs assets resp srv emsg ht hr hne hup

/-- C4, counterexample to the unamended claim: a 304 response is not 2xx, yet
`raise_for_status` does not raise for it, so the upload is counted as a
success and nothing aborts. -/
theorem upload_304_counterexample :
    uploadFiles (fun _ => ⟨304, "x"⟩) [("a-1.0.0.zip", [])] [] 0
      = ([("a-1.0.0.zip", mkUploadData "a-1.0.0.zip" [])], Except.ok 1)
    ∧ (304 < 200 ∨ 300 ≤ 304) ∧ isHttpError 304 = false := by
  refine ⟨rfl, by omega, by decide⟩

/-- C4, witness: with one clean upload before it, a 500 response on the second
file aborts with the message naming that file, keeps the first file uploaded,
and never attempts the third. -/
theorem upload_http_error_contract_witness :
    uploadFiles (fun f => if f = "bad-1.0.0.zip" then ⟨500, "boom"⟩ else ⟨200, ""⟩)
      [("good-1.0.0.zip", []), ("bad-1.0.0.zip", []), ("x-1.0.0.zip", [])] [] 0
      = ([("good-1.0.0.zip", mkUploadData "good-1.0.0.zip" [])],
         Except.error "上传 bad-1.0.0.zip 失败: HTTP 500: boom") := by
  have h := upload_http_error_contract.1
    (fun f => if f = "bad-1.0.0.zip" then ⟨500, "boom"⟩ else ⟨200, ""⟩)
    [("good-1.0.0.zip", [])] [("x-1.0.0.zip", [])] ("bad-1.0.0.zip", [])
    (by
      intro f hf
      fin_cases hf
      decide)
    (by decide) [] 0
  rw [show ([("good-1.0.0.zip", []), ("bad-1.0.0.zip", []), ("x-1.0.0.zip", [])]
      : List (String × List Nat))
    = [("good-1.0.0.zip", [])] ++ [("bad-1.0.0.zip", []), ("x-1.0.0.zip", [])] from rfl, h]
  rfl

/-! ## Claim C9 -/

/-- C9.  With upload not skipped and no index server configured,
`upload_to_devpi` raises before discovering or contacting anything (its result
is the configuration error independently of the directory contents and of the
server's behaviour), the `download` command then exits with code 1 even though
the configuration checks passed and regardless of how the downloads went; the
same configuration with `--skip-upload` exits 0, showing the upfront checks
(token and repository only) do not catch the missing server. -/
theorem missing_server_contract :
    (∀ (resp : String → HttpResp) (dir : Dir),
      upload_to_devpi none resp dir = ([], Except.error "必须指定 devpi_server 参数"))
    ∧ (∀ (tok repo : Option String) (fs : Option Dir) (assets : List Asset)
        (resp : String → HttpResp),
      pyTruthy tok = true → pyTruthy repo = true → assets ≠ [] →
      (downloadCommand tok repo fs false none (Except.ok assets) resp).exitCode = 1)
    ∧ (∀ (tok repo : Option String) (fs : Option Dir) (assets : List Asset)
        (resp : String → HttpResp),
      pyTruthy tok = true → pyTruthy repo = true →
      (downloadCommand tok repo fs true none (Except.ok assets) resp).exitCode = 0) := by
  have h1 : ∀ (resp : String → HttpResp) (dir : Dir),
      upload_to_devpi none resp dir = ([], Except.error "必须指定 devpi_server 参数") := by
    intro resp dir
    rfl
  refine ⟨h1, ?_, ?_⟩
  · intro tok repo fs assets resp ht hr hne
    exact exit_one_of_upload_error tok repo fs assets resp none _ ht hr hne (by rw [h1])
  · intro tok repo fs assets resp ht hr
    unfold downloadCommand
    rw [ht, hr]
    simp only [Bool.true_eq_false, if_false]
    cases hie : assets.isEmpty with
    | true => rfl
    | false =>
      cases hd : downloadPhase assets fs with
      | mk dir failed => rfl

/-- C9, witness: one successful download, no server configured — exit 1
without skip, exit 0 with skip. -/
theorem missing_server_contract_witness :
    upload_to_devpi none (fun _ => ⟨200, ""⟩) [("a-1.0.0.zip", [5])]
      = ([], Except.error "必须指定 devpi_server 参数")
    ∧ (downloadCommand (some "t") (some "o/r") none false none
        (Except.ok [Asset.mk "a-1.0.0.zip" (fun _ => AttemptOutcome.success [[5]])])
        (fun _ => ⟨200, ""⟩)).exitCode = 1
    ∧ (downloadCommand (some "t") (some "o/r") none true none
        (Except.ok [Asset.mk "a-1.0.0.zip" (fun _ => AttemptOutcome.success [[5]])])
        (fun _ => ⟨200, ""⟩)).exitCode = 0 := by
  refine ⟨missing_server_contract.1 _ _, ?_, ?_⟩
  · exact missing_server_contract.2.1 (some "t") (some "o/r") none
      [Asset.mk "a-1.0.0.zip" (fun _ => AttemptOutcome.success [[5]])] (fun _ => ⟨200, ""⟩)
      (by decide) (by decide) (by simp)
  · exact missing_server_contract.2.2 (some "t") (some "o/r") none
      [Asset.mk "a-1.0.0.zip" (fun _ => AttemptOutcome.success [[5]])] (fun _ => ⟨200, ""⟩)
      (by decide) (by decide)

/-! ## Claim C5 -/

/-- C5 (amended).  When the repository has no releases
(`UnknownObjectException` from `get_latest_release`), the condition is
reported to the user and the process exits — but with exit code 1 (an error
exit through `typer.Exit(code=1)`), not cleanly with code 0. -/
theorem no_release_reported_exit_one (tok repo : Option String) (fs : Option Dir)
    (skip : Bool) (srv : Option String) (resp : String → HttpResp)
    (ht : pyTruthy tok = true) (hr : pyTruthy repo = true) :
    downloadCommand tok repo fs skip srv (Except.error ()) resp
      = ⟨1, [msgNoRelease (repo.getD "")], fs, []⟩ := by
  unfold downloadCommand
  rw [ht, hr]
  rfl

/-- C5, counterexample to the claim as stated: the no-release run reports the
condition but exits with code 1, not 0 — it is an error exit, consistent with
the spec's own §6/§7 exit-code table and contradicting the "exits cleanly"
sentence. -/
theorem no_release_exit_not_clean :
    (downloadCommand (some "t") (some "o/r") none false (some "s") (Except.error ())
        (fun _ => ⟨200, ""⟩)).printed = [msgNoRelease "o/r"]
    ∧ (downloadCommand (some "t") (some "o/r") none false (some "s") (Except.error ())
        (fun _ => ⟨200, ""⟩)).exitCode = 1
    ∧ (downloadCommand (some "t") (some "o/r") none false (some "s") (Except.error ())
        (fun _ => ⟨200, ""⟩)).exitCode ≠ 0 := by
  refine ⟨rfl, rfl, by decide⟩

/-- C5, witness for the amended statement. -/
theorem no_release_reported_exit_one_witness :
    downloadCommand (some "t") (some "o/r") none false (some "s") (Except.error ())
        (fun _ => ⟨200, ""⟩)
      = ⟨1, [msgNoRelease "o/r"], none, []⟩ :=
  no_release_reported_exit_one (some "t") (some "o/r") none false (some "s")
    (fun _ => ⟨200, ""⟩) (by decide) (by decide)
